import Mathlib

/-!
Verification development for the UTXO input-selection engine of the
iota-lib-rs repository.  The data model (outputs, addresses, unlock
conditions) and the selection pipeline are embedded shallowly: machine
integers (u64/u32/u256) become Nat, vectors become List, fallible
functions return Except.  Functions present in the repository sources
are translated directly from them; components whose source files are
absent (the unlockability oracle, the transition synthesizer, the
remainder builder, the requirement dispatcher) are modelled from the
specification and carry a doc comment saying so.
-/

namespace IotaSel

/-- Address is a tagged union: Ed25519 (32-byte hash), Alias (AliasId), Nft (NftId).
Hashes and ids are modelled as Nat; id 0 is the null (unset) chain id. -/
inductive Address where
  | ed25519 (hash : Nat)
  | alias (id : Nat)
  | nft (id : Nat)
deriving DecidableEq, Repr

/-- Kind check used when the driver partitions inputs by address kind. -/
def Address.is_ed25519_kind : Address → Bool
  | .ed25519 _ => true
  | _ => false

/-- A native token entry: 38-byte token id mapped to a 256-bit amount, both as Nat. -/
structure NativeToken where
  token_id : Nat
  amount : Nat
deriving DecidableEq, Repr

/-- Alias transitions come in two kinds, state and governance. -/
inductive AliasTransition where
  | state
  | governance
deriving DecidableEq, Repr

/-- Unlock conditions, per the output model. -/
inductive UnlockCondition where
  | address (addr : Address)
  | storageDepositReturn (return_address : Address) (amount : Nat)
  | timelock (unix_time : Nat)
  | expiration (return_address : Address) (unix_time : Nat)
  | stateControllerAddress (addr : Address)
  | governorAddress (addr : Address)
  | immutableAliasAddress (alias_id : Nat)
deriving DecidableEq, Repr

/-- Token scheme of a foundry: minted, melted and maximum supply (256-bit, as Nat). -/
structure TokenScheme where
  minted_tokens : Nat
  melted_tokens : Nat
  maximum_supply : Nat
deriving DecidableEq, Repr

/-- Features carried by outputs; only the sender and issuer features drive selection. -/
inductive Feature where
  | sender (addr : Address)
  | issuer (addr : Address)
deriving DecidableEq, Repr

/-- Output is a tagged union with four variants: Basic, Nft, Alias, Foundry.
All carry a base amount, native tokens, unlock conditions and features;
alias outputs carry their chain id, state index and foundry counter; foundry
outputs carry a serial number, a token scheme and the controlling alias id
(their sole, immutable alias-address unlock condition). -/
inductive Output where
  | basic (amount : Nat) (native_tokens : List NativeToken)
      (unlock_conditions : List UnlockCondition) (features : List Feature)
  | alias (amount : Nat) (native_tokens : List NativeToken) (alias_id : Nat)
      (state_index : Nat) (foundry_counter : Nat)
      (unlock_conditions : List UnlockCondition) (features : List Feature)
  | nft (amount : Nat) (native_tokens : List NativeToken) (nft_id : Nat)
      (unlock_conditions : List UnlockCondition) (features : List Feature)
  | foundry (amount : Nat) (native_tokens : List NativeToken) (serial_number : Nat)
      (token_scheme : TokenScheme) (immutable_alias_id : Nat) (features : List Feature)
deriving DecidableEq, Repr

/-- Base amount of an output. -/
def Output.amount : Output → Nat
  | .basic a _ _ _ => a
  | .alias a _ _ _ _ _ _ => a
  | .nft a _ _ _ _ => a
  | .foundry a _ _ _ _ _ => a

/-- Native tokens of an output. -/
def Output.native_tokens : Output → List NativeToken
  | .basic _ nts _ _ => nts
  | .alias _ nts _ _ _ _ _ => nts
  | .nft _ nts _ _ _ => nts
  | .foundry _ nts _ _ _ _ => nts

def Output.is_basic : Output → Bool
  | .basic _ _ _ _ => true
  | _ => false

def Output.is_alias : Output → Bool
  | .alias _ _ _ _ _ _ _ => true
  | _ => false

def Output.is_nft : Output → Bool
  | .nft _ _ _ _ _ => true
  | _ => false

def Output.is_foundry : Output → Bool
  | .foundry _ _ _ _ _ _ => true
  | _ => false

/-- Unlock conditions of an output.  A foundry's sole unlock condition is its
immutable alias address; the Option mirrors the Rust accessor. -/
def Output.unlock_conditions : Output → Option (List UnlockCondition)
  | .basic _ _ ulcs _ => some ulcs
  | .alias _ _ _ _ _ ulcs _ => some ulcs
  | .nft _ _ _ ulcs _ => some ulcs
  | .foundry _ _ _ _ ia _ => some [UnlockCondition.immutableAliasAddress ia]

/-- Features of an output (sender and issuer features together). -/
def Output.features : Output → List Feature
  | .basic _ _ _ fs => fs
  | .alias _ _ _ _ _ _ fs => fs
  | .nft _ _ _ _ fs => fs
  | .foundry _ _ _ _ _ fs => fs

/-- State index of an alias output (0 for other variants). -/
def Output.state_index : Output → Nat
  | .alias _ _ _ si _ _ _ => si
  | _ => 0

/-- Resolved chain id of an alias output: the stored id if non-zero, else the
hash of the creating output id.  The 32-byte hash function is threaded as a
parameter of the development. -/
def alias_id_non_null (hash : Nat → Nat) (alias_id : Nat) (output_id : Nat) : Nat :=
  if alias_id = 0 then hash output_id else alias_id

/-- Resolved chain id of an NFT output, same rule as for aliases. -/
def nft_id_non_null (hash : Nat → Nat) (nft_id : Nat) (output_id : Nat) : Nat :=
  if nft_id = 0 then hash output_id else nft_id

/-- Persistent chain identity of an alias, NFT or foundry output. -/
inductive ChainId where
  | aliasChain (id : Nat)
  | nftChain (id : Nat)
  | foundryChain (id : Nat)
deriving DecidableEq, Repr

/-- Foundry id, a pairing of the controlling alias id and the serial number
(standing in for the 38-byte concatenation). -/
def foundry_id (controlling_alias_id serial_number : Nat) : Nat :=
  Nat.pair controlling_alias_id serial_number

/-- InputSigningData bundles an output with its origin output id and the
bech32-encoded controlling address (decoded here to its Address value; the
derivation chain is irrelevant to selection and omitted). -/
structure InputSigningData where
  output : Output
  output_id : Nat
  bech32_address : Address
deriving DecidableEq, Repr

/-- Requirement worklist element of the core engine. -/
inductive Requirement where
  | amount
  | nativeTokens
  | alias (id : Nat) (transition : AliasTransition)
  | foundry (id : Nat)
  | nft (id : Nat)
  | sender (addr : Address)
  | issuer (addr : Address)
deriving DecidableEq, Repr

/-- Error taxonomy of the core engine.  The fuelExhausted constructor is a
modelling device for the fuelled fulfillment loop and corresponds to no
source error; malformedOutput stands for panics on outputs that violate the
per-variant unlock-condition whitelist. -/
inductive Error where
  | noAvailableInputsProvided
  | noOutputsProvided
  | requiredInputIsForbidden (output_id : Nat)
  | requiredInputIsNotAvailable (output_id : Nat)
  | unfulfillableRequirement (req : Requirement)
  | notEnoughBalance (found required : Nat)
  | notEnoughNativeTokens (token_id found required : Nat)
  | noBalanceForNativeTokenRemainder
  | invalidStorageDepositAmount (amount required : Nat)
  | consolidationRequired (max_inputs : Nat)
  | locked
  | malformedOutput
  | fuelExhausted
deriving DecidableEq, Repr

/-- Rent structure from the protocol parameters. -/
structure RentStructure where
  v_byte_cost : Nat
  v_byte_factor_key : Nat
  v_byte_factor_data : Nat
deriving DecidableEq, Repr

/-- Protocol parameters consumed by selection. -/
structure ProtocolParameters where
  rent_structure : RentStructure
  token_supply : Nat
deriving DecidableEq, Repr

/-- Burn intents: explicit declarations that consumed chain outputs have no successor. -/
structure Burn where
  aliases : List Nat
  nfts : List Nat
  foundries : List Nat
deriving DecidableEq, Repr

/-- Remainder information returned alongside the selected inputs. -/
structure RemainderData where
  output : Output
  address : Address
deriving DecidableEq, Repr

/-- Working state for the input selection algorithm, mirroring the fields of
the source struct; hash sets become lists.  The requirements list is a stack
whose head is the most recently pushed element. -/
structure InputSelection where
  available_inputs : List InputSigningData
  required_inputs : Option (List Nat)
  forbidden_inputs : List Nat
  selected_inputs : List InputSigningData
  outputs : List Output
  addresses : List Address
  burn : Option Burn
  remainder_address : Option Address
  protocol_parameters : ProtocolParameters
  timestamp : Nat
  requirements : List Requirement
  automatically_transitioned : List ChainId
deriving DecidableEq, Repr

/-- Result of the input selection algorithm. -/
structure Selected where
  inputs : List InputSigningData
  outputs : List Output
  remainder : Option RemainderData
deriving DecidableEq, Repr

end IotaSel

namespace IotaSel

/-- Whether a timelock condition keeps the output locked at the given
timestamp: locked while timestamp is strictly below the timelock instant. -/
def is_time_locked (ulcs : List UnlockCondition) (timestamp : Nat) : Bool :=
  ulcs.any fun u =>
    match u with
    | .timelock t => timestamp < t
    | _ => false

/-- First plain address unlock condition of an output. -/
def find_address_uc (ulcs : List UnlockCondition) : Option Address :=
  ulcs.findSome? fun u =>
    match u with
    | .address a => some a
    | _ => none

/-- First storage-deposit-return unlock condition. -/
def find_sdr_uc (ulcs : List UnlockCondition) : Option (Address × Nat) :=
  ulcs.findSome? fun u =>
    match u with
    | .storageDepositReturn a n => some (a, n)
    | _ => none

/-- First expiration unlock condition. -/
def find_expiration_uc (ulcs : List UnlockCondition) : Option (Address × Nat) :=
  ulcs.findSome? fun u =>
    match u with
    | .expiration a t => some (a, t)
    | _ => none

/-- First state controller address of an alias output. -/
def find_state_controller_uc (ulcs : List UnlockCondition) : Option Address :=
  ulcs.findSome? fun u =>
    match u with
    | .stateControllerAddress a => some a
    | _ => none

/-- First governor address of an alias output. -/
def find_governor_uc (ulcs : List UnlockCondition) : Option Address :=
  ulcs.findSome? fun u =>
    match u with
    | .governorAddress a => some a
    | _ => none

/-- Effective unlocker of a basic or NFT output: if a timelock still holds the
output is locked; if an expiration condition has fired the return address is
the owner, otherwise the plain address condition; the second component is the
storage-deposit-return receiver, if any. -/
def scan_unlock_conditions (ulcs : List UnlockCondition) (timestamp : Nat) :
    Except Error (Address × Option Address) :=
  if is_time_locked ulcs timestamp then .error .locked
  else
    let sdr := (find_sdr_uc ulcs).map Prod.fst
    match find_expiration_uc ulcs with
    | some (return_address, t) =>
      if t ≤ timestamp then .ok (return_address, sdr)
      else
        match find_address_uc ulcs with
        | some a => .ok (a, sdr)
        | none => .error .malformedOutput
    | none =>
      match find_address_uc ulcs with
      | some a => .ok (a, sdr)
      | none => .error .malformedOutput

/-- Modelled from the spec: the unlockability oracle
required_and_unlocked_address (its source file, part of the output type
crate, is not in the repository snapshot).  For basic and NFT outputs the
unlock conditions are scanned (timelock, then expiration, then address); for
alias outputs the caller-supplied transition picks the state controller (for
State, also the default when no hint is given) or the governor (Governance);
for a foundry the immutable alias address is returned unconditionally. -/
def required_and_unlocked_address (o : Output) (timestamp : Nat)
    (alias_transition : Option AliasTransition) : Except Error (Address × Option Address) :=
  match o with
  | .basic _ _ ulcs _ => scan_unlock_conditions ulcs timestamp
  | .nft _ _ _ ulcs _ => scan_unlock_conditions ulcs timestamp
  | .alias _ _ _ _ _ ulcs _ =>
    match alias_transition with
    | some .governance =>
      match find_governor_uc ulcs with
      | some a => .ok (a, none)
      | none => .error .malformedOutput
    | _ =>
      match find_state_controller_uc ulcs with
      | some a => .ok (a, none)
      | none => .error .malformedOutput
  | .foundry _ _ _ _ ia _ => .ok (.alias ia, none)

/-- Modelled from the spec: is_alias_transition (its source file,
core/requirement/alias.rs, is not in the repository snapshot) infers the
transition kind of a consumed alias input from the transaction's output set:
a successor that advances the state index means State, otherwise Governance;
no successor gives no hint. -/
def is_alias_transition (hash : Nat → Nat) (input : InputSigningData)
    (outputs : List Output) : Option (AliasTransition × Output) :=
  match input.output with
  | .alias _ _ aid si _ _ _ =>
    let id := alias_id_non_null hash aid input.output_id
    match outputs.find? (fun o =>
        match o with
        | .alias _ _ aid2 _ _ _ _ => aid2 == id
        | _ => false) with
    | some o => if si < o.state_index then some (.state, o) else some (.governance, o)
    | none => none
  | _ => none

/-- Predicate of filter_inputs, translated from the retain closure in
core/mod.rs: alias outputs are always kept; other non-basic/foundry/nft
outputs are dropped; remaining outputs are dropped when time-locked or when
their required unlock address is not in the known address set. -/
def keep_input (addresses : List Address) (timestamp : Nat) (input : InputSigningData) : Bool :=
  if input.output.is_alias then true
  else if !input.output.is_basic && !input.output.is_foundry && !input.output.is_nft then false
  else
    match input.output.unlock_conditions with
    | none => false
    | some ulcs =>
      if is_time_locked ulcs timestamp then false
      else
        match required_and_unlocked_address input.output timestamp none with
        | .ok pr => addresses.contains pr.1
        | .error _ => false

/-- Removes from the available pool the inputs the engine could never unlock,
translated from InputSelection::filter_inputs. -/
def filter_inputs (s : InputSelection) : InputSelection :=
  { s with available_inputs :=
      s.available_inputs.filter (keep_input s.addresses s.timestamp) }

/-- Chain address owned by an input, when its output is an alias or NFT output. -/
def chain_address (hash : Nat → Nat) (i : InputSigningData) : Option Address :=
  match i.output with
  | .alias _ _ aid _ _ _ _ => some (.alias (alias_id_non_null hash aid i.output_id))
  | .nft _ _ nid _ _ => some (.nft (nft_id_non_null hash nid i.output_id))
  | _ => none

/-- Whether an input's output owns the chain id named by an alias or NFT
address, as tested by the position search in sort_input_signing_data. -/
def owns_chain_address (hash : Nat → Nat) (j : InputSigningData) (c : Address) : Bool :=
  match c with
  | .alias id =>
    match j.output with
    | .alias _ _ aid _ _ _ _ => alias_id_non_null hash aid j.output_id == id
    | _ => false
  | .nft id =>
    match j.output with
    | .nft _ _ nid _ _ => nft_id_non_null hash nid j.output_id == id
    | _ => false
  | _ => false

/-- One insertion step of the input sort: an alias/NFT-addressed input is
inserted right after the input owning its chain id; failing that, before the
first input addressed by its own chain address; failing that, appended. -/
def sort_step (hash : Nat → Nat) (sorted : List InputSigningData)
    (input : InputSigningData) : List InputSigningData :=
  match sorted.findIdx? (fun j => owns_chain_address hash j input.bech32_address) with
  | some p => sorted.insertIdx (p + 1) input
  | none =>
    match chain_address hash input with
    | some c =>
      match sorted.findIdx? (fun j => j.bech32_address == c) with
      | some p => sorted.insertIdx p input
      | none => sorted ++ [input]
    | none => sorted ++ [input]

/-- Deterministic ordering of the selected inputs before signing, translated
from InputSelection::sort_input_signing_data: Ed25519-addressed inputs first
in their incoming order, then each alias/NFT-addressed input placed by
sort_step. -/
def sort_input_signing_data (hash : Nat → Nat)
    (inputs : List InputSigningData) : List InputSigningData :=
  let parts := inputs.partition (fun i => i.bech32_address.is_ed25519_kind)
  parts.2.foldl (sort_step hash) parts.1

end IotaSel

namespace IotaSel

/-- Sum of base amounts over a list of inputs. -/
def inputs_sum_of (inputs : List InputSigningData) : Nat :=
  (inputs.map (fun i => i.output.amount)).sum

/-- Sum of base amounts over a list of outputs. -/
def outputs_sum_of (outputs : List Output) : Nat :=
  (outputs.map Output.amount).sum

/-- Base-token sums over the selected inputs and the outputs, translated from
base_token_sums in new/requirement/base_token.rs. -/
def base_token_sums (selected_inputs : List InputSigningData) (outputs : List Output) :
    Nat × Nat :=
  (inputs_sum_of selected_inputs, outputs_sum_of outputs)

/-- Greedy pull from the front of an amount-sorted pool: while the covered
amount is below the target, move the head input to the pulled list.  Returns
the covered amount, the pulled inputs and the remaining pool. -/
def pull_lowest (diff : Nat) : Nat → List InputSigningData →
    Nat × List InputSigningData × List InputSigningData
  | covered, [] => (covered, [], [])
  | covered, x :: xs =>
    if covered < diff then
      let r := pull_lowest diff (covered + x.output.amount) xs
      (r.1, x :: r.2.1, r.2.2)
    else (covered, [], x :: xs)

/-- Removes the element at the given index by swapping the last element into
its place, as Vec::swap_remove does. -/
def swap_remove (l : List α) (i : Nat) : List α :=
  match l.getLast? with
  | none => l
  | some last => (l.set i last).dropLast

/-- Element at an index together with the pool after swap-removing it. -/
def take_at (l : List α) (i : Nat) : Option (α × List α) :=
  match l.get? i with
  | some x => some (x, swap_remove l i)
  | none => none

namespace NewDraft

/-- Requirement type of the draft new module, whose alias requirement carries
no transition kind. -/
inductive RequirementN where
  | amount
  | nativeTokens
  | alias (id : Nat)
  | foundry (id : Nat)
  | nft (id : Nat)
  | sender (addr : Address)
  | issuer (addr : Address)
deriving DecidableEq, Repr

/-- Error values produced by the draft new module. -/
inductive ErrorN where
  | unfulfillableRequirement (req : RequirementN)
  | notEnoughBalance (found required : Nat)
deriving DecidableEq, Repr

/-- Amount fulfiller of the draft new module, translated from
fulfill_base_token_requirement in new/requirement/base_token.rs: when the
selected inputs already cover the outputs nothing is selected; otherwise the
available pool is sorted by ascending base amount (a stable sort, so ties
keep their prior order) and pulled greedily until the difference is covered;
an exhausted pool gives NotEnoughBalance with the newly covered amount as
found and the difference as required.  Returns the newly selected inputs and
the remaining pool. -/
def fulfill_base_token_requirement (available_inputs selected_inputs : List InputSigningData)
    (outputs : List Output) : Except ErrorN (List InputSigningData × List InputSigningData) :=
  let sums := base_token_sums selected_inputs outputs
  if sums.2 ≤ sums.1 then .ok ([], available_inputs)
  else
    let diff := sums.2 - sums.1
    let sorted := available_inputs.insertionSort fun a b =>
      a.output.amount ≤ b.output.amount
    let r := pull_lowest diff 0 sorted
    if r.1 < diff then .error (.notEnoughBalance r.1 diff)
    else .ok (r.2.1, r.2.2)

/-- Ownership test of the draft alias fulfiller's predicate. -/
def alias_predicate (hash : Nat → Nat) (input : InputSigningData) (id : Nat) : Bool :=
  match input.output with
  | .alias _ _ aid _ _ _ _ => alias_id_non_null hash aid input.output_id == id
  | _ => false

/-- Alias fulfiller of the draft new module, translated from
new/requirement/alias.rs: return empty when a selected input already owns the
alias id, otherwise swap-remove the first available owner, otherwise fail
with an alias requirement. -/
def fulfill_alias_requirement (hash : Nat → Nat) (alias_id : Nat)
    (available_inputs selected_inputs : List InputSigningData) (_outputs : List Output) :
    Except ErrorN (List InputSigningData × List InputSigningData) :=
  if selected_inputs.any (fun i => alias_predicate hash i alias_id) then
    .ok ([], available_inputs)
  else
    match available_inputs.findIdx? (fun i => alias_predicate hash i alias_id) with
    | some idx =>
      match take_at available_inputs idx with
      | some (x, rest) => .ok ([x], rest)
      | none => .error (.unfulfillableRequirement (.alias alias_id))
    | none => .error (.unfulfillableRequirement (.alias alias_id))

/-- Ownership test of the draft NFT fulfiller's predicate. -/
def nft_predicate (hash : Nat → Nat) (input : InputSigningData) (id : Nat) : Bool :=
  match input.output with
  | .nft _ _ nid _ _ => nft_id_non_null hash nid input.output_id == id
  | _ => false

/-- NFT fulfiller of the draft new module, translated from
new/requirement/nft.rs, symmetric to the alias fulfiller. -/
def fulfill_nft_requirement (hash : Nat → Nat) (nft_id : Nat)
    (available_inputs selected_inputs : List InputSigningData) (_outputs : List Output) :
    Except ErrorN (List InputSigningData × List InputSigningData) :=
  if selected_inputs.any (fun i => nft_predicate hash i nft_id) then
    .ok ([], available_inputs)
  else
    match available_inputs.findIdx? (fun i => nft_predicate hash i nft_id) with
    | some idx =>
      match take_at available_inputs idx with
      | some (x, rest) => .ok ([x], rest)
      | none => .error (.unfulfillableRequirement (.nft nft_id))
    | none => .error (.unfulfillableRequirement (.nft nft_id))

/-- Address test of the draft sender fulfiller: true when the output's unlock
conditions are exactly one plain address condition equal to the address. -/
def is_ed25519_address (input : InputSigningData) (address : Address) : Bool :=
  match input.output.unlock_conditions with
  | some [UnlockCondition.address a] => a == address
  | _ => false

/-- Ed25519 branch of the draft sender fulfiller, translated from
new/requirement/sender.rs (including its quirk of searching the selected
inputs for a basic output but swap-removing from the available pool). -/
def fulfill_ed25519_address_requirement (address : Address)
    (available_inputs selected_inputs : List InputSigningData) :
    Except ErrorN (List InputSigningData × List InputSigningData) :=
  if selected_inputs.any (fun i => is_ed25519_address i address) then
    .ok ([], available_inputs)
  else
    let index :=
      match selected_inputs.findIdx? (fun i =>
          i.output.is_basic && is_ed25519_address i address) with
      | some idx => some idx
      | none =>
        available_inputs.findIdx? (fun i =>
          !i.output.is_basic && is_ed25519_address i address)
    match index with
    | some idx =>
      match take_at available_inputs idx with
      | some (x, rest) => .ok ([x], rest)
      | none => .error (.unfulfillableRequirement (.sender address))
    | none => .error (.unfulfillableRequirement (.sender address))

/-- Sender fulfiller of the draft new module, translated from
new/requirement/sender.rs: alias and NFT sender addresses delegate to the
chain fulfillers with no error re-mapping. -/
def fulfill_sender_requirement (hash : Nat → Nat) (address : Address)
    (available_inputs selected_inputs : List InputSigningData) (outputs : List Output) :
    Except ErrorN (List InputSigningData × List InputSigningData) :=
  match address with
  | .ed25519 _ => fulfill_ed25519_address_requirement address available_inputs selected_inputs
  | .alias id => fulfill_alias_requirement hash id available_inputs selected_inputs outputs
  | .nft id => fulfill_nft_requirement hash id available_inputs selected_inputs outputs

end NewDraft

end IotaSel

namespace IotaSel

/-- Address test of the core sender fulfiller, translated from
has_ed25519_address in core/requirement/sender.rs: only the plain address
unlock condition is compared; expiration and the timestamp are not
consulted. -/
def has_ed25519_address (input : InputSigningData) (address : Address) : Bool :=
  match input.output.unlock_conditions with
  | some ulcs =>
    match find_address_uc ulcs with
    | some a => a == address
    | none => false
  | none => false

/-- Modelled from the spec: the core alias fulfiller (its source file,
core/requirement/alias.rs, is not in the repository snapshot): empty when a
selected input already owns the alias id, else swap-remove the first
available owner paired with the requirement's transition, else an
unfulfillable alias requirement. -/
def fulfill_alias_requirement (hash : Nat → Nat) (s : InputSelection) (alias_id : Nat)
    (transition : AliasTransition) :
    Except Error (InputSelection × List (InputSigningData × Option AliasTransition)) :=
  if s.selected_inputs.any (fun i => NewDraft.alias_predicate hash i alias_id) then
    .ok (s, [])
  else
    match s.available_inputs.findIdx? (fun i => NewDraft.alias_predicate hash i alias_id) with
    | some idx =>
      match take_at s.available_inputs idx with
      | some (x, rest) =>
        .ok ({ s with available_inputs := rest }, [(x, some transition)])
      | none => .error (.unfulfillableRequirement (.alias alias_id transition))
    | none => .error (.unfulfillableRequirement (.alias alias_id transition))

/-- Modelled from the spec: the core NFT fulfiller (its source file,
core/requirement/nft.rs, is not in the repository snapshot), symmetric to the
alias fulfiller with no transition kind. -/
def fulfill_nft_requirement (hash : Nat → Nat) (s : InputSelection) (nft_id : Nat) :
    Except Error (InputSelection × List (InputSigningData × Option AliasTransition)) :=
  if s.selected_inputs.any (fun i => NewDraft.nft_predicate hash i nft_id) then
    .ok (s, [])
  else
    match s.available_inputs.findIdx? (fun i => NewDraft.nft_predicate hash i nft_id) with
    | some idx =>
      match take_at s.available_inputs idx with
      | some (x, rest) => .ok ({ s with available_inputs := rest }, [(x, none)])
      | none => .error (.unfulfillableRequirement (.nft nft_id))
    | none => .error (.unfulfillableRequirement (.nft nft_id))

/-- Ed25519 branch of the core sender fulfiller, translated from
fulfill_ed25519_address_requirement in core/requirement/sender.rs: empty when
an already-selected input carries the address as its plain address unlock
condition; otherwise a basic available input with that address is preferred,
then any other available input with it; otherwise an unfulfillable sender
requirement. -/
def fulfill_ed25519_address_requirement (s : InputSelection) (address : Address) :
    Except Error (InputSelection × List (InputSigningData × Option AliasTransition)) :=
  if s.selected_inputs.any (fun i => has_ed25519_address i address) then
    .ok (s, [])
  else
    let index :=
      match s.available_inputs.findIdx? (fun i =>
          i.output.is_basic && has_ed25519_address i address) with
      | some idx => some idx
      | none =>
        s.available_inputs.findIdx? (fun i =>
          !i.output.is_basic && has_ed25519_address i address)
    match index with
    | some idx =>
      match take_at s.available_inputs idx with
      | some (x, rest) => .ok ({ s with available_inputs := rest }, [(x, none)])
      | none => .error (.unfulfillableRequirement (.sender address))
    | none => .error (.unfulfillableRequirement (.sender address))

/-- Sender fulfiller of the core engine, translated from
fulfill_sender_requirement in core/requirement/sender.rs: Ed25519 addresses
go to the Ed25519 branch; alias and NFT addresses delegate to the chain
fulfillers, and an unfulfillable alias/NFT error is re-mapped to an
unfulfillable sender requirement before being returned. -/
def fulfill_sender_requirement (hash : Nat → Nat) (s : InputSelection) (address : Address) :
    Except Error (InputSelection × List (InputSigningData × Option AliasTransition)) :=
  match address with
  | .ed25519 _ => fulfill_ed25519_address_requirement s address
  | .alias id =>
    match fulfill_alias_requirement hash s id .state with
    | .ok res => .ok res
    | .error (.unfulfillableRequirement (.alias _ _)) =>
      .error (.unfulfillableRequirement (.sender address))
    | .error e => .error e
  | .nft id =>
    match fulfill_nft_requirement hash s id with
    | .ok res => .ok res
    | .error (.unfulfillableRequirement (.nft _)) =>
      .error (.unfulfillableRequirement (.sender address))
    | .error e => .error e

/-- Modelled from the spec: the issuer fulfiller (its source file is not in
the repository snapshot) is identical to the sender fulfiller with the error
kind re-mapped to Issuer. -/
def fulfill_issuer_requirement (hash : Nat → Nat) (s : InputSelection) (address : Address) :
    Except Error (InputSelection × List (InputSigningData × Option AliasTransition)) :=
  match fulfill_sender_requirement hash s address with
  | .ok res => .ok res
  | .error (.unfulfillableRequirement (.sender a)) =>
    .error (.unfulfillableRequirement (.issuer a))
  | .error e => .error e

end IotaSel

namespace IotaSel

/-- Modelled from the spec: structural stand-in for the serialized byte size
of an output (the on-wire serialization is out of scope); key-like and
data-like byte counts are approximated from the shallow representation. -/
def output_data_bytes (o : Output) : Nat :=
  9 + 48 * o.native_tokens.length +
    (match o.unlock_conditions with
     | some ulcs => 40 * ulcs.length
     | none => 0) +
    10 * o.features.length

/-- Modelled from the spec: the storage-deposit minimum is a linear function
of the serialized byte size with per-byte cost factors from the rent
structure: v_byte_cost times (key factor times key bytes plus data factor
times data bytes), with 34 key bytes for the output id. -/
def storage_deposit_minimum (rent : RentStructure) (o : Output) : Nat :=
  rent.v_byte_cost * (rent.v_byte_factor_key * 34 +
    rent.v_byte_factor_data * output_data_bytes o)

/-- Remainder address resolution: the caller-supplied address, else the first
selected Ed25519-addressed input's address, else a null Ed25519 address. -/
def resolve_remainder_address (s : InputSelection) : Address :=
  match s.remainder_address with
  | some a => a
  | none =>
    match s.selected_inputs.find? (fun i => i.bech32_address.is_ed25519_kind) with
    | some i => i.bech32_address
    | none => .ed25519 0

/-- Shape of the basic output a remainder would use, for its storage-deposit
minimum. -/
def remainder_output_shape (addr : Address) (amount : Nat) (tokens : List NativeToken) :
    Output :=
  .basic amount tokens [UnlockCondition.address addr] []

/-- Modelled from the spec: the core amount fulfiller (its source file,
core/requirement/amount.rs, is not in the repository snapshot): with
in_sum at least out_sum nothing is selected; otherwise the remaining
available inputs are sorted by ascending base amount and pulled greedily
until in_sum reaches out_sum plus the storage deposit of a potential
remainder output; an exhausted pool gives NotEnoughBalance. -/
def fulfill_amount_requirement (s : InputSelection) :
    Except Error (InputSelection × List (InputSigningData × Option AliasTransition)) :=
  let sums := base_token_sums s.selected_inputs s.outputs
  if sums.2 ≤ sums.1 then .ok (s, [])
  else
    let margin := storage_deposit_minimum s.protocol_parameters.rent_structure
      (remainder_output_shape (resolve_remainder_address s) 0 [])
    let diff := sums.2 + margin - sums.1
    let sorted := s.available_inputs.insertionSort fun a b =>
      a.output.amount ≤ b.output.amount
    let r := pull_lowest diff 0 sorted
    if r.1 < diff then .error (.notEnoughBalance r.1 diff)
    else .ok ({ s with available_inputs := r.2.2 }, r.2.1.map (fun i => (i, none)))

/-- Amount of one token id within a native token list. -/
def token_amount (nts : List NativeToken) (tid : Nat) : Nat :=
  ((nts.filter (fun t => t.token_id == tid)).map (fun t => t.amount)).sum

/-- Amount of one token id over a list of inputs. -/
def inputs_token_amount (inputs : List InputSigningData) (tid : Nat) : Nat :=
  (inputs.map (fun i => token_amount i.output.native_tokens tid)).sum

/-- Amount of one token id over a list of outputs. -/
def outputs_token_amount (outputs : List Output) (tid : Nat) : Nat :=
  (outputs.map (fun o => token_amount o.native_tokens tid)).sum

/-- Minting contribution of the selected foundries for one token id: for each
selected foundry input whose successor appears in the outputs, the increase
in minted tokens counts toward the input side. -/
def foundries_minted_delta (selected : List InputSigningData)
    (outputs : List Output) (tid : Nat) : Nat :=
  (selected.map (fun i =>
    match i.output with
    | .foundry _ _ serial scheme ia _ =>
      if foundry_id ia serial == tid then
        match outputs.find? (fun o =>
            match o with
            | .foundry _ _ serial2 _ ia2 _ => foundry_id ia2 serial2 == foundry_id ia serial
            | _ => false) with
        | some (.foundry _ _ _ scheme2 _ _) => scheme2.minted_tokens - scheme.minted_tokens
        | _ => 0
      else 0
    | _ => 0)).sum

/-- Melting contribution of the selected foundries for one token id, counting
toward the output side. -/
def foundries_melted_delta (selected : List InputSigningData)
    (outputs : List Output) (tid : Nat) : Nat :=
  (selected.map (fun i =>
    match i.output with
    | .foundry _ _ serial scheme ia _ =>
      if foundry_id ia serial == tid then
        match outputs.find? (fun o =>
            match o with
            | .foundry _ _ serial2 _ ia2 _ => foundry_id ia2 serial2 == foundry_id ia serial
            | _ => false) with
        | some (.foundry _ _ _ scheme2 _ _) => scheme2.melted_tokens - scheme.melted_tokens
        | _ => 0
      else 0
    | _ => 0)).sum

/-- Greedy pull for one native-token deficit: candidates carrying the token
are taken in ascending order of the amount carried until the deficit is
covered; the pulled inputs are erased from the pool. -/
def pull_tokens_go (tid deficit : Nat) : Nat → List InputSigningData →
    List InputSigningData → Except Error (List InputSigningData)
  | covered, pulled, [] =>
    if covered < deficit then
      .error (.notEnoughNativeTokens tid covered deficit)
    else .ok pulled
  | covered, pulled, x :: xs =>
    if covered < deficit then
      pull_tokens_go tid deficit (covered + token_amount x.output.native_tokens tid)
        (pulled ++ [x]) xs
    else .ok pulled

def pull_tokens (s : InputSelection) (tid deficit : Nat) :
    Except Error (InputSelection × List InputSigningData) :=
  let candidates := (s.available_inputs.filter
      (fun i => 0 < token_amount i.output.native_tokens tid)).insertionSort
    fun a b => token_amount a.output.native_tokens tid ≤
      token_amount b.output.native_tokens tid
  match pull_tokens_go tid deficit 0 [] candidates with
  | .error e => .error e
  | .ok pulled =>
    .ok ({ s with available_inputs := pulled.foldl List.erase s.available_inputs }, pulled)

/-- Modelled from the spec: the native-tokens fulfiller (its source file is
not in the repository snapshot): for each token id required by the outputs
whose output total (plus melted deltas) exceeds the input total (plus minted
deltas), available inputs carrying the token are pulled in ascending order of
carried amount until the deficit is covered, or NotEnoughNativeTokens is
raised; surpluses are left to the remainder builder. -/
def native_tokens_go : InputSelection → List InputSigningData → List Nat →
    Except Error (InputSelection × List InputSigningData)
  | s, sel, [] => .ok (s, sel)
  | s, sel, tid :: tids =>
    if outputs_token_amount s.outputs tid +
        foundries_melted_delta (s.selected_inputs ++ sel) s.outputs tid ≤
        inputs_token_amount (s.selected_inputs ++ sel) tid +
        foundries_minted_delta (s.selected_inputs ++ sel) s.outputs tid then
      native_tokens_go s sel tids
    else
      match pull_tokens s tid
        (outputs_token_amount s.outputs tid +
          foundries_melted_delta (s.selected_inputs ++ sel) s.outputs tid -
          (inputs_token_amount (s.selected_inputs ++ sel) tid +
            foundries_minted_delta (s.selected_inputs ++ sel) s.outputs tid)) with
      | .error e => .error e
      | .ok (s2, pulled) => native_tokens_go s2 (sel ++ pulled) tids

def fulfill_native_tokens_requirement (s : InputSelection) :
    Except Error (InputSelection × List (InputSigningData × Option AliasTransition)) :=
  match native_tokens_go s []
    (((s.outputs.map (fun o => o.native_tokens.map (fun t => t.token_id))).flatten).dedup) with
  | .error e => .error e
  | .ok (s1, sel) => .ok (s1, sel.map (fun i => (i, none)))

/-- Modelled from the spec: the foundry fulfiller (its source file is not in
the repository snapshot): empty when a selected foundry input already matches
the foundry id; else swap-remove the first available match; on a miss an
unfulfillable foundry requirement.  An alias requirement for the controlling
alias is enqueued, because a foundry can only be unlocked alongside its
alias. -/
def fulfill_foundry_requirement (s : InputSelection) (fid : Nat) :
    Except Error (InputSelection × List (InputSigningData × Option AliasTransition)) :=
  let pred := fun (i : InputSigningData) =>
    match i.output with
    | .foundry _ _ serial _ ia _ => foundry_id ia serial == fid
    | _ => false
  let s := { s with requirements :=
    Requirement.alias (Nat.unpair fid).1 .state :: s.requirements }
  if s.selected_inputs.any pred then .ok (s, [])
  else
    match s.available_inputs.findIdx? pred with
    | some idx =>
      match take_at s.available_inputs idx with
      | some (x, rest) => .ok ({ s with available_inputs := rest }, [(x, none)])
      | none => .error (.unfulfillableRequirement (.foundry fid))
    | none => .error (.unfulfillableRequirement (.foundry fid))

end IotaSel

namespace IotaSel

/-- Burn accessor with the none case as empty sets. -/
def burn_aliases (b : Option Burn) : List Nat :=
  match b with
  | some burn => burn.aliases
  | none => []

def burn_nfts (b : Option Burn) : List Nat :=
  match b with
  | some burn => burn.nfts
  | none => []

def burn_foundries (b : Option Burn) : List Nat :=
  match b with
  | some burn => burn.foundries
  | none => []

/-- Modelled from the spec: the transition synthesizer (its source file,
core/transition.rs, is not in the repository snapshot).  A consumed alias,
NFT or foundry input whose chain id is not burned, has no caller-supplied
successor in the outputs and has not already been transitioned automatically
gets a successor output: a copy with the chain id made non-null, the alias
state index advanced under a State transition, and the chain id recorded in
the automatically-transitioned set. -/
def transition_input (hash : Nat → Nat) (s : InputSelection) (input : InputSigningData)
    (alias_transition : Option AliasTransition) : InputSelection × Option Output :=
  match input.output with
  | .alias amount nts aid si fc ulcs fs =>
    let id := alias_id_non_null hash aid input.output_id
    if (burn_aliases s.burn).contains id then (s, none)
    else if s.outputs.any (fun o =>
        match o with
        | .alias _ _ aid2 _ _ _ _ => aid2 == id
        | _ => false) then (s, none)
    else if s.automatically_transitioned.contains (.aliasChain id) then (s, none)
    else
      let si2 := match alias_transition with
        | some .governance => si
        | _ => si + 1
      ({ s with automatically_transitioned := .aliasChain id :: s.automatically_transitioned },
        some (.alias amount nts id si2 fc ulcs fs))
  | .nft amount nts nid ulcs fs =>
    let id := nft_id_non_null hash nid input.output_id
    if (burn_nfts s.burn).contains id then (s, none)
    else if s.outputs.any (fun o =>
        match o with
        | .nft _ _ nid2 _ _ => nid2 == id
        | _ => false) then (s, none)
    else if s.automatically_transitioned.contains (.nftChain id) then (s, none)
    else
      ({ s with automatically_transitioned := .nftChain id :: s.automatically_transitioned },
        some (.nft amount nts id ulcs fs))
  | .foundry amount nts serial scheme ia fs =>
    let id := foundry_id ia serial
    if (burn_foundries s.burn).contains id then (s, none)
    else if s.outputs.any (fun o =>
        match o with
        | .foundry _ _ serial2 _ ia2 _ => foundry_id ia2 serial2 == id
        | _ => false) then (s, none)
    else if s.automatically_transitioned.contains (.foundryChain id) then (s, none)
    else
      ({ s with automatically_transitioned := .foundryChain id :: s.automatically_transitioned },
        some (.foundry amount nts serial scheme ia fs))
  | .basic _ _ _ _ => (s, none)

/-- Requirement induced by a selected input's required address, translated
from required_alias_nft_addresses in core/mod.rs: an alias unlocker always
enqueues an Alias requirement with the State transition kind; an NFT unlocker
enqueues an Nft requirement; Ed25519 unlockers enqueue nothing. -/
def required_alias_nft_addresses (hash : Nat → Nat) (s : InputSelection)
    (input : InputSigningData) : Except Error (Option Requirement) :=
  let alias_transition := (is_alias_transition hash input s.outputs).map Prod.fst
  match required_and_unlocked_address input.output s.timestamp alias_transition with
  | .error e => .error e
  | .ok (required_address, _) =>
    match required_address with
    | .alias a => .ok (some (.alias a .state))
    | .nft n => .ok (some (.nft n))
    | _ => .ok none

/-- Appends the synthesized successor output, when there is one. -/
def push_transition (s : InputSelection) (o : Option Output) : InputSelection :=
  match o with
  | some o2 => { s with outputs := s.outputs ++ [o2] }
  | none => s

/-- Selection of one input, translated from select_input in core/mod.rs: the
transition synthesizer may append a successor output, the induced alias/NFT
address requirement is pushed, and the input is appended to the selected
list. -/
def select_input (hash : Nat → Nat) (s : InputSelection) (input : InputSigningData)
    (alias_transition : Option AliasTransition) : Except Error InputSelection :=
  let tr := transition_input hash s input alias_transition
  let s1 := push_transition tr.1 tr.2
  match required_alias_nft_addresses hash s1 input with
  | .error e => .error e
  | .ok req =>
    let s2 := match req with
      | some r => { s1 with requirements := r :: s1.requirements }
      | none => s1
    .ok { s2 with selected_inputs := s2.selected_inputs ++ [input] }

/-- Modelled from the spec: the requirement dispatcher (its source file,
core/requirement/mod.rs, is not in the repository snapshot) routes each
requirement kind to its fulfiller. -/
def fulfill_requirement (hash : Nat → Nat) (s : InputSelection) :
    Requirement →
    Except Error (InputSelection × List (InputSigningData × Option AliasTransition))
  | .amount => fulfill_amount_requirement s
  | .nativeTokens => fulfill_native_tokens_requirement s
  | .alias id transition => fulfill_alias_requirement hash s id transition
  | .foundry id => fulfill_foundry_requirement s id
  | .nft id => fulfill_nft_requirement hash s id
  | .sender addr => fulfill_sender_requirement hash s addr
  | .issuer addr => fulfill_issuer_requirement hash s addr

/-- Folds select_input over the inputs returned by a fulfiller. -/
def select_inputs (hash : Nat → Nat) :
    InputSelection → List (InputSigningData × Option AliasTransition) →
    Except Error InputSelection
  | s, [] => .ok s
  | s, p :: ps =>
    match select_input hash s p.1 p.2 with
    | .error e => .error e
    | .ok s1 => select_inputs hash s1 ps

/-- Fulfillment loop of select, processing requirements until the stack is
empty; the fuel argument is a modelling device bounding the number of
iterations (the source loop runs unboundedly). -/
def selection_loop (hash : Nat → Nat) : Nat → InputSelection → Except Error InputSelection
  | fuel, s =>
    match s.requirements with
    | [] => .ok s
    | r :: rest =>
      match fuel with
      | 0 => .error .fuelExhausted
      | fuel1 + 1 =>
        match fulfill_requirement hash { s with requirements := rest } r with
        | .error e => .error e
        | .ok (s1, chosen) =>
          match select_inputs hash s1 chosen with
          | .error e => .error e
          | .ok s2 => selection_loop hash fuel1 s2

end IotaSel

namespace IotaSel

/-- Requirements induced by one requested output, modelled from the spec's
requirement-queue initialization: a non-null chain id not owned by a selected
input enqueues the matching chain requirement, a foundry also enqueues its
controlling alias, and sender/issuer features enqueue sender/issuer
requirements. -/
def output_requirements (hash : Nat → Nat) (selected : List InputSigningData)
    (o : Output) : List Requirement :=
  let chain_reqs : List Requirement :=
    match o with
    | .alias _ _ aid _ _ _ _ =>
      if aid ≠ 0 && !(selected.any (fun i => NewDraft.alias_predicate hash i aid)) then
        [.alias aid .state]
      else []
    | .nft _ _ nid _ _ =>
      if nid ≠ 0 && !(selected.any (fun i => NewDraft.nft_predicate hash i nid)) then
        [.nft nid]
      else []
    | .foundry _ _ serial _ ia _ =>
      [.foundry (foundry_id ia serial), .alias ia .state]
    | .basic _ _ _ _ => []
  let feature_reqs := o.features.map fun f =>
    match f with
    | .sender a => Requirement.sender a
    | .issuer a => Requirement.issuer a
  chain_reqs ++ feature_reqs

/-- Modelled from the spec: outputs_requirements walks the requested outputs
collecting chain, sender and issuer requirements and pushes them on the
requirement stack. -/
def outputs_requirements (hash : Nat → Nat) (s : InputSelection) : InputSelection :=
  { s with requirements :=
      ((s.outputs.map (output_requirements hash s.selected_inputs)).flatten).reverse ++
        s.requirements }

/-- Modelled from the spec: burn_requirements enqueues an Alias, Nft or
Foundry requirement for each burned chain id (a burned alias uses the
Governance kind, since destruction is a governance action). -/
def burn_requirements (s : InputSelection) : InputSelection :=
  let reqs :=
    ((burn_aliases s.burn).map (fun id => Requirement.alias id .governance)) ++
    ((burn_nfts s.burn).map Requirement.nft) ++
    ((burn_foundries s.burn).map Requirement.foundry)
  { s with requirements := reqs.reverse ++ s.requirements }

/-- Selection of the caller-required inputs, translated from the required
input handling in init: each required output id must not be forbidden and
must be available; the input is swap-removed from the pool and selected. -/
def select_required_inputs (hash : Nat → Nat) :
    InputSelection → List Nat → Except Error InputSelection
  | s, [] => .ok s
  | s, rid :: rest =>
    if s.forbidden_inputs.contains rid then .error (.requiredInputIsForbidden rid)
    else
      match s.available_inputs.findIdx? (fun i => i.output_id == rid) with
      | some idx =>
        match take_at s.available_inputs idx with
        | some (x, pool) =>
          match select_input hash { s with available_inputs := pool } x none with
          | .error e => .error e
          | .ok s1 => select_required_inputs hash s1 rest
        | none => .error (.requiredInputIsNotAvailable rid)
      | none => .error (.requiredInputIsNotAvailable rid)

/-- Initialization of the selection state, translated from init in
core/mod.rs: push the Amount then the NativeTokens requirement, drop
forbidden inputs from the pool, select the caller-required inputs, then
collect the requirements of the requested outputs and of the burn set. -/
def init (hash : Nat → Nat) (s : InputSelection) : Except Error InputSelection :=
  let s := { s with requirements := .nativeTokens :: .amount :: s.requirements }
  let s := { s with available_inputs :=
    s.available_inputs.filter (fun i => !(s.forbidden_inputs.contains i.output_id)) }
  let req_list := match s.required_inputs with
    | some rids => rids
    | none => []
  match select_required_inputs hash { s with required_inputs := none } req_list with
  | .error e => .error e
  | .ok s1 => .ok (burn_requirements (outputs_requirements hash s1))

/-- Storage-deposit-return outputs owed by the selected inputs: a basic
output paying exactly the declared amount to the return address, for every
selected input carrying a storage-deposit-return condition. -/
def storage_deposit_return_outputs (s : InputSelection) : List Output :=
  s.selected_inputs.filterMap fun i =>
    match i.output.unlock_conditions with
    | some ulcs =>
      (find_sdr_uc ulcs).map fun pr =>
        Output.basic pr.2 [] [UnlockCondition.address pr.1] []
    | none => none

/-- Modelled from the spec: the remainder builder (its source file,
core/remainder.rs, is not in the repository snapshot).  Storage-deposit
returns are paid first, the base remainder is the input total minus the
output total minus the returns (a shortfall is a balance error), native-token
surpluses are collected, and a single basic remainder output is produced when
something is left, subject to its storage-deposit minimum. -/
def remainder_base (s : InputSelection) : Nat :=
  inputs_sum_of s.selected_inputs - outputs_sum_of s.outputs -
    outputs_sum_of (storage_deposit_return_outputs s)

/-- Native-token surpluses left on the input side after the outputs and the
storage-deposit returns are paid. -/
def remainder_surplus (s : InputSelection) : List NativeToken :=
  (((s.selected_inputs.map
    (fun i => i.output.native_tokens.map (fun t => t.token_id))).flatten).dedup).filterMap
    fun tid =>
      if outputs_token_amount (s.outputs ++ storage_deposit_return_outputs s) tid <
          inputs_token_amount s.selected_inputs tid then
        some { token_id := tid,
               amount := inputs_token_amount s.selected_inputs tid -
                 outputs_token_amount (s.outputs ++ storage_deposit_return_outputs s) tid }
      else none

/-- The single basic remainder output: all native-token surpluses and the base
remainder, addressed to the resolved remainder address. -/
def remainder_output (s : InputSelection) : Output :=
  remainder_output_shape (resolve_remainder_address s) (remainder_base s) (remainder_surplus s)

def remainder_and_storage_deposit_return_outputs (s : InputSelection) :
    Except Error (Option RemainderData × List Output) :=
  if inputs_sum_of s.selected_inputs <
      outputs_sum_of s.outputs + outputs_sum_of (storage_deposit_return_outputs s) then
    .error (.notEnoughBalance (inputs_sum_of s.selected_inputs)
      (outputs_sum_of s.outputs + outputs_sum_of (storage_deposit_return_outputs s)))
  else if remainder_base s = 0 ∧ remainder_surplus s = [] then
    .ok (none, storage_deposit_return_outputs s)
  else if storage_deposit_minimum s.protocol_parameters.rent_structure
      (remainder_output s) ≤ remainder_base s then
    .ok (some { output := remainder_output s, address := resolve_remainder_address s },
      storage_deposit_return_outputs s)
  else if remainder_surplus s = [] then
    .error (.invalidStorageDepositAmount (remainder_base s)
      (storage_deposit_minimum s.protocol_parameters.rent_structure (remainder_output s)))
  else .error .noBalanceForNativeTokenRemainder

/-- Output list of the returned Selected: the loop's outputs, the remainder
output when there is one, then the storage-deposit-return outputs. -/
def final_outputs (outputs : List Output) (rem : Option RemainderData)
    (sdrs : List Output) : List Output :=
  (match rem with
   | some r => outputs ++ [r.output]
   | none => outputs) ++ sdrs

/-- Entry point of the selection engine, translated from select in
core/mod.rs: filter the pool, reject an empty pool and then an empty output
set with no burn, initialize, run the fulfillment loop, build the remainder
and storage-deposit-return outputs, and sort the selected inputs. -/
def select (hash : Nat → Nat) (fuel : Nat) (s : InputSelection) : Except Error Selected :=
  let s := filter_inputs s
  if s.available_inputs.isEmpty then .error .noAvailableInputsProvided
  else if s.outputs.isEmpty && s.burn.isNone then .error .noOutputsProvided
  else
    match init hash s with
    | .error e => .error e
    | .ok s1 =>
      match selection_loop hash fuel s1 with
      | .error e => .error e
      | .ok s2 =>
        match remainder_and_storage_deposit_return_outputs s2 with
        | .error e => .error e
        | .ok (remainder, sdrs) =>
          .ok { inputs := sort_input_signing_data hash s2.selected_inputs,
                outputs := final_outputs s2.outputs remainder sdrs,
                remainder := remainder }

/-- Constructor of an InputSelection, translated from InputSelection::new in
core/mod.rs.  The now argument models the wall-clock value the source reads
from the system clock (SystemTime::now) to seed the default timestamp; the
known address set is extended with the chain addresses of all available alias
and NFT inputs. -/
def InputSelection.new (hash : Nat → Nat) (now : Nat)
    (available_inputs : List InputSigningData) (outputs : List Output)
    (addresses : List Address) (protocol_parameters : ProtocolParameters) :
    InputSelection :=
  let addresses := addresses ++ available_inputs.filterMap (chain_address hash)
  { available_inputs := available_inputs
    required_inputs := none
    forbidden_inputs := []
    selected_inputs := []
    outputs := outputs
    addresses := addresses
    burn := none
    remainder_address := none
    protocol_parameters := protocol_parameters
    timestamp := now
    requirements := []
    automatically_transitioned := [] }

/-- Builder setting the timestamp, translated from the timestamp method. -/
def InputSelection.with_timestamp (s : InputSelection) (timestamp : Nat) : InputSelection :=
  { s with timestamp := timestamp }

/-- Builder setting the burn, translated from the burn method. -/
def InputSelection.with_burn (s : InputSelection) (burn : Burn) : InputSelection :=
  { s with burn := some burn }

/-- The select entry point with an explicit wall-clock argument: the source
of select performs no clock access, so the clock value is ignored. -/
def select_at_wall_clock (hash : Nat → Nat) (_wall_clock : Nat) (fuel : Nat)
    (s : InputSelection) : Except Error Selected :=
  select hash fuel s

end IotaSel

namespace IotaSel

namespace Automatic

/-- Error values of the client crate observed by the automatic input
selection driver; block errors other than InvalidStorageDepositAmount are
collapsed into otherBlockError. -/
inductive ClientError where
  | notEnoughBalance (found required : Nat)
  | notEnoughNativeTokens (token_id found required : Nat)
  | noBalanceForNativeTokenRemainder
  | consolidationRequired (max_inputs : Nat)
  | invalidStorageDepositAmount (amount required : Nat)
  | noInputs
  | otherBlockError (code : Nat)
  | otherClientError (code : Nat)
deriving DecidableEq, Repr

/-- Deficit errors the driver caches instead of returning, translated from
the match arms of get_inputs in automatic.rs. -/
def is_cached_deficit : ClientError → Bool
  | .notEnoughBalance _ _ => true
  | .notEnoughNativeTokens _ _ _ => true
  | .noBalanceForNativeTokenRemainder => true
  | .consolidationRequired _ => true
  | .invalidStorageDepositAmount _ _ => true
  | _ => false

/-- Outcome of one try_select_inputs attempt within the address-scanning
loop; the selected transaction data is abstracted to a tag. -/
inductive RoundOutcome where
  | success (data : Nat)
  | failure (e : ClientError)
deriving DecidableEq, Repr

/-- A round the driver would cache and continue past. -/
def is_cacheable_round : RoundOutcome → Bool
  | .success _ => false
  | .failure e => is_cached_deficit e

/-- Error carried by a failed round. -/
def err_of : RoundOutcome → Option ClientError
  | .success _ => none
  | .failure e => some e

/-- Address-scanning loop of ClientBlockBuilder::get_inputs, translated from
automatic.rs with the node I/O abstracted into the list of attempt outcomes:
a success returns its data, a cacheable deficit error is stored in the cache
and the loop continues, any other error is fatal, and when the address gap
range is exhausted the cached error is returned, defaulting to NoInputs. -/
def get_inputs_loop : List RoundOutcome → Option ClientError → Except ClientError Nat
  | [], cached => .error (cached.getD .noInputs)
  | .success d :: _, _cached => .ok d
  | .failure e :: rest, _cached =>
    if is_cached_deficit e then get_inputs_loop rest (some e) else .error e

/-- Last element of a list, with a default. -/
def lastD (l : List α) (d : α) : α :=
  match l with
  | [] => d
  | x :: xs => lastD xs x

end Automatic

end IotaSel

namespace IotaSel

theorem sort_step_perm (hash : Nat → Nat) (sorted : List InputSigningData)
    (input : InputSigningData) : (sort_step hash sorted input).Perm (input :: sorted) := by
  unfold sort_step
  split
  · next p hp =>
    have hlt : p < sorted.length := (List.findIdx?_eq_some_iff_findIdx_eq.mp hp).1
    exact List.perm_insertIdx _ _ (by omega)
  · next =>
    split
    · next c hc =>
      split
      · next p hp =>
        have hlt : p < sorted.length := (List.findIdx?_eq_some_iff_findIdx_eq.mp hp).1
        exact List.perm_insertIdx _ _ (by omega)
      · exact List.perm_append_singleton _ _
    · exact List.perm_append_singleton _ _

theorem foldl_sort_step_perm (hash : Nat → Nat) (rest : List InputSigningData) :
    ∀ sorted, (rest.foldl (sort_step hash) sorted).Perm (rest ++ sorted) := by
  induction rest with
  | nil => intro sorted; simp
  | cons x xs ih =>
    intro sorted
    have h1 := ih (sort_step hash sorted x)
    have h2 : (xs ++ sort_step hash sorted x).Perm (xs ++ x :: sorted) :=
      (sort_step_perm hash sorted x).append_left xs
    simpa using (h1.trans h2).trans List.perm_middle

theorem sort_input_signing_data_perm (hash : Nat → Nat) (inputs : List InputSigningData) :
    (sort_input_signing_data hash inputs).Perm inputs := by
  unfold sort_input_signing_data
  rw [List.partition_eq_filter_filter]
  refine (foldl_sort_step_perm hash _ _).trans ?_
  refine List.Perm.trans ?_
    (List.filter_append_perm (fun i => i.bech32_address.is_ed25519_kind) inputs)
  simpa [Function.comp] using
    (@List.perm_append_comm InputSigningData
      (inputs.filter (fun i => !i.bech32_address.is_ed25519_kind))
      (inputs.filter (fun i => i.bech32_address.is_ed25519_kind)))

theorem sort_input_signing_data_sum (hash : Nat → Nat) (inputs : List InputSigningData) :
    inputs_sum_of (sort_input_signing_data hash inputs) = inputs_sum_of inputs := by
  unfold inputs_sum_of
  exact ((sort_input_signing_data_perm hash inputs).map (fun i => i.output.amount)).sum_eq

theorem sort_input_signing_data_mem (hash : Nat → Nat) (inputs : List InputSigningData)
    (i : InputSigningData) : i ∈ sort_input_signing_data hash inputs ↔ i ∈ inputs :=
  (sort_input_signing_data_perm hash inputs).mem_iff

theorem outputs_sum_of_append (a b : List Output) :
    outputs_sum_of (a ++ b) = outputs_sum_of a + outputs_sum_of b := by
  simp [outputs_sum_of]

theorem remainder_output_amount (s : InputSelection) :
    (remainder_output s).amount = remainder_base s := by
  simp [remainder_output, remainder_output_shape, Output.amount]

theorem remainder_balances (s : InputSelection) (rem : Option RemainderData)
    (sdrs : List Output)
    (h : remainder_and_storage_deposit_return_outputs s = .ok (rem, sdrs)) :
    outputs_sum_of (final_outputs s.outputs rem sdrs) = inputs_sum_of s.selected_inputs := by
  unfold final_outputs
  unfold remainder_and_storage_deposit_return_outputs at h
  split at h
  · exact absurd h (by simp)
  · next hge =>
    split at h
    · next hz =>
      injection h with h1
      injection h1 with hrem hsdrs
      subst hrem; subst hsdrs
      simp only [outputs_sum_of_append]
      have hb := hz.1
      unfold remainder_base at hb
      omega
    · split at h
      · next hmin =>
        injection h with h1
        injection h1 with hrem hsdrs
        subst hrem; subst hsdrs
        simp only [outputs_sum_of_append]
        have hamt : outputs_sum_of [remainder_output s] = remainder_base s := by
          simp [outputs_sum_of, remainder_output_amount]
        rw [hamt]
        unfold remainder_base
        omega
      · split at h
        · exact absurd h (by simp)
        · exact absurd h (by simp)

end IotaSel

namespace IotaSel

/-- Decidable equality for Except values, used to evaluate the pipeline on
concrete inputs. -/
instance {e a : Type} [DecidableEq e] [DecidableEq a] : DecidableEq (Except e a) :=
  fun x y =>
    match x, y with
    | .ok v, .ok w =>
      if h : v = w then .isTrue (by rw [h])
      else .isFalse (by intro hc; injection hc; contradiction)
    | .error v, .error w =>
      if h : v = w then .isTrue (by rw [h])
      else .isFalse (by intro hc; injection hc; contradiction)
    | .ok _, .error _ => .isFalse (by intro hc; injection hc)
    | .error _, .ok _ => .isFalse (by intro hc; injection hc)

/-- C1: for every successful call of select, the sum of base amounts over the
returned selected inputs equals the sum of base amounts over the returned
final outputs, including any remainder and storage-deposit-return outputs
appended after the fulfillment loop. -/
theorem claim1_select_base_token_sums_balance (hash : Nat → Nat) (fuel : Nat)
    (s : InputSelection) (sel : Selected) (h : select hash fuel s = .ok sel) :
    inputs_sum_of sel.inputs = outputs_sum_of sel.outputs := by
  unfold select at h
  dsimp only at h
  split at h
  · exact absurd h (by simp)
  · split at h
    · exact absurd h (by simp)
    · split at h
      · exact absurd h (by simp)
      · next s1 hinit =>
        split at h
        · exact absurd h (by simp)
        · next s2 hloop =>
          split at h
          · exact absurd h (by simp)
          · next rem sdrs hrem =>
            injection h with h1
            subst h1
            rw [sort_input_signing_data_sum]
            exact (remainder_balances s2 rem sdrs hrem).symm

def sample_hash : Nat → Nat := fun n => n + 1000

def sample_protocol : ProtocolParameters :=
  { rent_structure := { v_byte_cost := 0, v_byte_factor_key := 0, v_byte_factor_data := 0 },
    token_supply := 0 }

def sample_input : InputSigningData :=
  { output := .basic 100 [] [.address (.ed25519 1)] [], output_id := 0,
    bech32_address := .ed25519 1 }

def sample_output : Output := .basic 100 [] [.address (.ed25519 1)] []

def sample_state : InputSelection :=
  InputSelection.new sample_hash 7 [sample_input] [sample_output] [.ed25519 1] sample_protocol

def sample_selected : Selected :=
  { inputs := [sample_input], outputs := [sample_output], remainder := none }

/-- Witness for C1: a concrete successful selection of one basic input
against one basic output, balancing 100 against 100. -/
theorem claim1_witness :
    inputs_sum_of sample_selected.inputs = outputs_sum_of sample_selected.outputs :=
  claim1_select_base_token_sums_balance sample_hash 5 sample_state sample_selected (by decide)

end IotaSel

namespace IotaSel

theorem inputs_sum_of_nil : inputs_sum_of [] = 0 := rfl

theorem inputs_sum_of_cons (x : InputSigningData) (l : List InputSigningData) :
    inputs_sum_of (x :: l) = x.output.amount + inputs_sum_of l := by
  simp [inputs_sum_of]

theorem inputs_sum_of_append (a b : List InputSigningData) :
    inputs_sum_of (a ++ b) = inputs_sum_of a + inputs_sum_of b := by
  simp [inputs_sum_of]

theorem pull_lowest_spec (diff : Nat) (pool : List InputSigningData) : ∀ (covered : Nat),
    (pull_lowest diff covered pool).2.1 ++ (pull_lowest diff covered pool).2.2 = pool ∧
    (pull_lowest diff covered pool).1 =
      covered + inputs_sum_of (pull_lowest diff covered pool).2.1 ∧
    ((pull_lowest diff covered pool).1 < diff → (pull_lowest diff covered pool).2.2 = []) ∧
    (∀ q t, (pull_lowest diff covered pool).2.1 = q ++ t → t ≠ [] →
      covered + inputs_sum_of q < diff) := by
  induction pool with
  | nil =>
    intro covered
    refine ⟨rfl, by simp [pull_lowest, inputs_sum_of], fun _ => rfl, ?_⟩
    intro q t hqt ht
    exact absurd (List.append_eq_nil.mp hqt.symm).2 ht
  | cons x xs ih =>
    intro covered
    by_cases hc : covered < diff
    · obtain ⟨h1, h2, h3, h4⟩ := ih (covered + x.output.amount)
      have hred : pull_lowest diff covered (x :: xs) =
          ((pull_lowest diff (covered + x.output.amount) xs).1,
            x :: (pull_lowest diff (covered + x.output.amount) xs).2.1,
            (pull_lowest diff (covered + x.output.amount) xs).2.2) := by
        simp [pull_lowest, hc]
      rw [hred]
      refine ⟨by simpa using h1, ?_, h3, ?_⟩
      · simp only [inputs_sum_of_cons]
        omega
      · intro q t hqt ht
        cases q with
        | nil => simpa [inputs_sum_of] using hc
        | cons y q2 =>
          have hy : y = x := by
            have := congrArg (fun l => l.head?) hqt
            simpa using this.symm
          have htail : (pull_lowest diff (covered + x.output.amount) xs).2.1 = q2 ++ t := by
            have := congrArg (fun l => l.tail) hqt
            simpa using this
          have := h4 q2 t htail ht
          subst hy
          simp only [inputs_sum_of_cons]
          omega
    · have hred : pull_lowest diff covered (x :: xs) = (covered, [], x :: xs) := by
        simp [pull_lowest, hc]
      rw [hred]
      refine ⟨rfl, by simp [inputs_sum_of], fun hlt => absurd hlt hc, ?_⟩
      intro q t hqt ht
      exact absurd (List.append_eq_nil.mp hqt.symm).2 ht

theorem inputs_sum_of_insertion_sorted (l : List InputSigningData) :
    inputs_sum_of (l.insertionSort (fun a b => a.output.amount ≤ b.output.amount)) =
      inputs_sum_of l := by
  unfold inputs_sum_of
  exact ((l.perm_insertionSort (fun a b => a.output.amount ≤ b.output.amount)).map
    (fun i => i.output.amount)).sum_eq

/-- C3 (amended): with the selected inputs short of the outputs, the draft
amount fulfiller sorts the pool by ascending base amount with a stable sort
(ties keep the pool order, not output-id order), pulls a minimal prefix of
the sorted pool whose total covers the bare difference out_sum minus in_sum
(no storage-deposit margin for a remainder), and when the whole pool cannot
cover that difference it returns NotEnoughBalance with the pool total as
found and the difference as required. -/
theorem claim3_base_token_fulfiller_greedy (available selected : List InputSigningData)
    (outputs : List Output)
    (h : inputs_sum_of selected < outputs_sum_of outputs) :
    (NewDraft.fulfill_base_token_requirement available selected outputs =
        .error (.notEnoughBalance (inputs_sum_of available)
          (outputs_sum_of outputs - inputs_sum_of selected)) ↔
      inputs_sum_of available < outputs_sum_of outputs - inputs_sum_of selected) ∧
    (∀ p r, NewDraft.fulfill_base_token_requirement available selected outputs = .ok (p, r) →
      p ++ r = available.insertionSort (fun a b => a.output.amount ≤ b.output.amount) ∧
      outputs_sum_of outputs - inputs_sum_of selected ≤ inputs_sum_of p ∧
      (∀ q t, p = q ++ t → t ≠ [] →
        inputs_sum_of q < outputs_sum_of outputs - inputs_sum_of selected)) := by
  have hneg : ¬ (outputs_sum_of outputs ≤ inputs_sum_of selected) := by omega
  obtain ⟨h1, h2, h3, h4⟩ := pull_lowest_spec (outputs_sum_of outputs - inputs_sum_of selected)
    (available.insertionSort (fun a b => a.output.amount ≤ b.output.amount)) 0
  have hfd : NewDraft.fulfill_base_token_requirement available selected outputs =
      (if (pull_lowest (outputs_sum_of outputs - inputs_sum_of selected) 0
          (available.insertionSort (fun a b => a.output.amount ≤ b.output.amount))).1 <
          outputs_sum_of outputs - inputs_sum_of selected then
        .error (.notEnoughBalance
          (pull_lowest (outputs_sum_of outputs - inputs_sum_of selected) 0
            (available.insertionSort (fun a b => a.output.amount ≤ b.output.amount))).1
          (outputs_sum_of outputs - inputs_sum_of selected))
      else
        .ok ((pull_lowest (outputs_sum_of outputs - inputs_sum_of selected) 0
            (available.insertionSort (fun a b => a.output.amount ≤ b.output.amount))).2.1,
          (pull_lowest (outputs_sum_of outputs - inputs_sum_of selected) 0
            (available.insertionSort (fun a b => a.output.amount ≤ b.output.amount))).2.2)) := by
    unfold NewDraft.fulfill_base_token_requirement
    simp [base_token_sums, hneg]
  constructor
  · constructor
    · intro herr
      rw [hfd] at herr
      split at herr
      · next hlt =>
        injection herr with herr1
        injection herr1 with hfound hreq
        omega
      · exact absurd herr (by simp)
    · intro hlt
      have hall : (pull_lowest (outputs_sum_of outputs - inputs_sum_of selected) 0
          (available.insertionSort (fun a b => a.output.amount ≤ b.output.amount))).1 <
          outputs_sum_of outputs - inputs_sum_of selected := by
        have hple : inputs_sum_of (pull_lowest (outputs_sum_of outputs - inputs_sum_of selected) 0
            (available.insertionSort (fun a b => a.output.amount ≤ b.output.amount))).2.1 ≤
            inputs_sum_of available := by
          have hs := inputs_sum_of_insertion_sorted available
          have hsplit := congrArg inputs_sum_of h1
          rw [inputs_sum_of_append] at hsplit
          omega
        omega
      rw [hfd, if_pos hall]
      have hrem := h3 hall
      have : (pull_lowest (outputs_sum_of outputs - inputs_sum_of selected) 0
          (available.insertionSort (fun a b => a.output.amount ≤ b.output.amount))).2.1 =
          available.insertionSort (fun a b => a.output.amount ≤ b.output.amount) := by
        have := h1
        rw [hrem] at this
        simpa using this
      rw [show (pull_lowest (outputs_sum_of outputs - inputs_sum_of selected) 0
          (available.insertionSort (fun a b => a.output.amount ≤ b.output.amount))).1 =
          inputs_sum_of available by
        rw [h2, this, inputs_sum_of_insertion_sorted]; omega]
  · intro p r hok
    rw [hfd] at hok
    split at hok
    · exact absurd hok (by simp)
    · next hge =>
      injection hok with hok1
      injection hok1 with hp hr
      subst hp; subst hr
      refine ⟨h1, by omega, fun q t hq ht => by have := h4 q t hq ht; omega⟩

def tie_later : InputSigningData :=
  { output := .basic 50 [] [.address (.ed25519 1)] [], output_id := 2,
    bech32_address := .ed25519 1 }

def tie_earlier : InputSigningData :=
  { output := .basic 50 [] [.address (.ed25519 1)] [], output_id := 1,
    bech32_address := .ed25519 1 }

/-- C3 counterexample: two available inputs of equal amount whose output ids
are in descending order are pulled in pool order, not in output-id
lexicographic order, so the tie-breaking clause of the claim fails. -/
theorem claim3_counterexample :
    NewDraft.fulfill_base_token_requirement [tie_later, tie_earlier] []
      [.basic 100 [] [.address (.ed25519 1)] []] = .ok ([tie_later, tie_earlier], []) ∧
    tie_earlier.output_id < tie_later.output_id ∧
    tie_later.output.amount = tie_earlier.output.amount := by
  refine ⟨by decide, by decide, by decide⟩

/-- Witness for C3: a pool of total 50 against a difference of 100 is
exhausted and reports NotEnoughBalance with found 50 and required 100. -/
theorem claim3_witness :
    NewDraft.fulfill_base_token_requirement [tie_later] []
      [.basic 100 [] [.address (.ed25519 1)] []] = .error (.notEnoughBalance 50 100) := by
  have := (claim3_base_token_fulfiller_greedy [tie_later] []
    [.basic 100 [] [.address (.ed25519 1)] []] (by decide)).1.mpr (by decide)
  exact this

end IotaSel

namespace IotaSel

def clock_input : InputSigningData :=
  { output := .basic 50 [] [.address (.ed25519 1), .timelock 10] [], output_id := 3,
    bech32_address := .ed25519 1 }

def clock_output : Output := .basic 50 [] [.address (.ed25519 1)] []

/-- C4 counterexample: InputSelection::new seeds the timestamp from the
system clock (modelled by the explicit now argument), so running select on
values constructed at wall-clock times 5 and 20 over a pool holding an input
time-locked until 10 gives different results, and the constructed values
differ in their timestamp field. -/
theorem claim4_counterexample :
    select sample_hash 5 (InputSelection.new sample_hash 5 [clock_input] [clock_output]
      [.ed25519 1] sample_protocol) = .error .noAvailableInputsProvided ∧
    select sample_hash 5 (InputSelection.new sample_hash 20 [clock_input] [clock_output]
      [.ed25519 1] sample_protocol) ≠ .error .noAvailableInputsProvided ∧
    (InputSelection.new sample_hash 5 [clock_input] [clock_output]
      [.ed25519 1] sample_protocol).timestamp ≠
      (InputSelection.new sample_hash 20 [clock_input] [clock_output]
        [.ed25519 1] sample_protocol).timestamp :=
  ⟨by decide, by decide, by decide⟩

/-- C4 (amended): new() defaults the timestamp to the wall clock read at
construction and the timestamp builder overrides it, but select itself never
consults the clock: its result depends only on the InputSelection value, so
two runs at different wall-clock times over equal values are identical. -/
theorem claim4_select_ignores_wall_clock :
    (∀ (hash : Nat → Nat) (clock1 clock2 fuel : Nat) (s : InputSelection),
      select_at_wall_clock hash clock1 fuel s = select_at_wall_clock hash clock2 fuel s) ∧
    (∀ (hash : Nat → Nat) (now : Nat) (avail : List InputSigningData) (outs : List Output)
      (addrs : List Address) (p : ProtocolParameters),
      (InputSelection.new hash now avail outs addrs p).timestamp = now) ∧
    (∀ (s : InputSelection) (t : Nat), (s.with_timestamp t).timestamp = t) :=
  ⟨fun _ _ _ _ _ => rfl, fun _ _ _ _ _ _ => rfl, fun _ _ => rfl⟩

theorem fulfill_alias_requirement_error (hash : Nat → Nat) (s : InputSelection)
    (id : Nat) (t : AliasTransition) (e : Error)
    (h : fulfill_alias_requirement hash s id t = .error e) :
    e = .unfulfillableRequirement (.alias id t) := by
  unfold fulfill_alias_requirement at h
  split at h
  · exact absurd h (by simp)
  · split at h
    · split at h
      · exact absurd h (by simp)
      · injection h with h1; exact h1.symm
    · injection h with h1; exact h1.symm

theorem fulfill_nft_requirement_error (hash : Nat → Nat) (s : InputSelection)
    (id : Nat) (e : Error) (h : fulfill_nft_requirement hash s id = .error e) :
    e = .unfulfillableRequirement (.nft id) := by
  unfold fulfill_nft_requirement at h
  split at h
  · exact absurd h (by simp)
  · split at h
    · split at h
      · exact absurd h (by simp)
      · injection h with h1; exact h1.symm
    · injection h with h1; exact h1.symm

theorem fulfill_ed25519_address_requirement_error (s : InputSelection)
    (a : Address) (e : Error) (h : fulfill_ed25519_address_requirement s a = .error e) :
    e = .unfulfillableRequirement (.sender a) := by
  unfold fulfill_ed25519_address_requirement at h
  split at h
  · exact absurd h (by simp)
  · dsimp only at h
    split at h
    · split at h
      · exact absurd h (by simp)
      · injection h with h1; exact h1.symm
    · injection h with h1; exact h1.symm

/-- C5 (amended): the core sender fulfiller delegates alias and NFT sender
addresses to the chain fulfillers and re-maps their unfulfillable chain
errors to an unfulfillable Sender requirement, so no alias or NFT
unfulfillable error ever escapes it; the draft new-module fulfiller (see the
counterexample) lacks the re-mapping. -/
theorem claim5_core_sender_remaps_chain_errors (hash : Nat → Nat) (s : InputSelection) :
    (∀ id, fulfill_alias_requirement hash s id .state =
        .error (.unfulfillableRequirement (.alias id .state)) →
      fulfill_sender_requirement hash s (.alias id) =
        .error (.unfulfillableRequirement (.sender (.alias id)))) ∧
    (∀ id, fulfill_nft_requirement hash s id = .error (.unfulfillableRequirement (.nft id)) →
      fulfill_sender_requirement hash s (.nft id) =
        .error (.unfulfillableRequirement (.sender (.nft id)))) ∧
    (∀ a e, fulfill_sender_requirement hash s a = .error e →
      (∀ id t, e ≠ .unfulfillableRequirement (.alias id t)) ∧
      (∀ id, e ≠ .unfulfillableRequirement (.nft id))) := by
  refine ⟨?_, ?_, ?_⟩
  · intro id halias
    unfold fulfill_sender_requirement
    dsimp only
    rw [halias]
  · intro id hnft
    unfold fulfill_sender_requirement
    dsimp only
    rw [hnft]
  · intro a e hse
    cases a with
    | ed25519 x =>
      have he := fulfill_ed25519_address_requirement_error s (.ed25519 x) e hse
      subst he
      exact ⟨fun _ _ => by simp, fun _ => by simp⟩
    | «alias» idx =>
      unfold fulfill_sender_requirement at hse
      dsimp only at hse
      cases hres : fulfill_alias_requirement hash s idx .state with
      | ok v => rw [hres] at hse; exact absurd hse (by simp)
      | error e2 =>
        have he2 := fulfill_alias_requirement_error hash s idx .state e2 hres
        subst he2
        rw [hres] at hse
        injection hse with h1
        subst h1
        exact ⟨fun _ _ => by simp, fun _ => by simp⟩
    | nft idx =>
      unfold fulfill_sender_requirement at hse
      dsimp only at hse
      cases hres : fulfill_nft_requirement hash s idx with
      | ok v => rw [hres] at hse; exact absurd hse (by simp)
      | error e2 =>
        have he2 := fulfill_nft_requirement_error hash s idx e2 hres
        subst he2
        rw [hres] at hse
        injection hse with h1
        subst h1
        exact ⟨fun _ _ => by simp, fun _ => by simp⟩

/-- C5 counterexample: the draft new-module sender fulfiller invoked with the
alias address 5 over empty pools returns the unfulfillable Alias requirement
itself, not an unfulfillable Sender requirement. -/
theorem claim5_counterexample :
    NewDraft.fulfill_sender_requirement sample_hash (.alias 5) [] [] [] =
      .error (.unfulfillableRequirement (.alias 5)) ∧
    NewDraft.RequirementN.alias 5 ≠ NewDraft.RequirementN.sender (.alias 5) :=
  ⟨by decide, by decide⟩

def empty_state : InputSelection := InputSelection.new sample_hash 0 [] [] [] sample_protocol

/-- Witness for C5: over an empty state, the core alias fulfiller fails and
the core sender fulfiller re-maps the failure to a Sender requirement. -/
theorem claim5_witness :
    fulfill_sender_requirement sample_hash empty_state (.alias 5) =
      .error (.unfulfillableRequirement (.sender (.alias 5))) :=
  (claim5_core_sender_remaps_chain_errors sample_hash empty_state).1 5 (by decide)

end IotaSel

namespace IotaSel

theorem get_inputs_loop_all_cached (rounds : List Automatic.RoundOutcome) :
    ∀ (c : Option Automatic.ClientError),
      (∀ r ∈ rounds, Automatic.is_cacheable_round r = true) →
      Automatic.get_inputs_loop rounds c =
        .error (Automatic.lastD (rounds.filterMap Automatic.err_of)
          (c.getD .noInputs)) := by
  induction rounds with
  | nil => intro c _; rfl
  | cons r rs ih =>
    intro c hall
    have hr := hall r (by simp)
    cases r with
    | success d => simp [Automatic.is_cacheable_round] at hr
    | failure e =>
      have hdef : Automatic.is_cached_deficit e = true := by
        simpa [Automatic.is_cacheable_round] using hr
      have hrec := ih (some e) (fun x hx => hall x (by simp [hx]))
      calc Automatic.get_inputs_loop (.failure e :: rs) c
          = Automatic.get_inputs_loop rs (some e) := by
            simp [Automatic.get_inputs_loop, hdef]
        _ = .error (Automatic.lastD (rs.filterMap Automatic.err_of) e) := hrec
        _ = .error (Automatic.lastD ((Automatic.RoundOutcome.failure e :: rs).filterMap
              Automatic.err_of) (c.getD .noInputs)) := by
            simp [Automatic.err_of, Automatic.lastD]

/-- C8: when every attempt in the address-scanning loop fails with a
cacheable deficit error (NotEnoughBalance, NotEnoughNativeTokens,
NoBalanceForNativeTokenRemainder, ConsolidationRequired or
InvalidStorageDepositAmount), exhausting the gap range returns the most
recently cached error, and the generic NoInputs error only when no error was
cached (an empty attempt list). -/
theorem claim8_gap_exhaustion_returns_last_cached_error
    (rounds : List Automatic.RoundOutcome)
    (h : ∀ r ∈ rounds, Automatic.is_cacheable_round r = true) :
    Automatic.get_inputs_loop rounds none =
      .error (Automatic.lastD (rounds.filterMap Automatic.err_of) .noInputs) :=
  get_inputs_loop_all_cached rounds none h

/-- Witness for C8: two cached deficit errors; the loop returns the last one. -/
theorem claim8_witness :
    Automatic.get_inputs_loop
      [.failure (.notEnoughBalance 1 2), .failure .noBalanceForNativeTokenRemainder] none =
      .error .noBalanceForNativeTokenRemainder :=
  claim8_gap_exhaustion_returns_last_cached_error
    [.failure (.notEnoughBalance 1 2), .failure .noBalanceForNativeTokenRemainder]
    (by decide)

theorem push_transition_requirements (s : InputSelection) (o : Option Output) :
    (push_transition s o).requirements = s.requirements := by
  cases o <;> rfl

theorem push_transition_addresses (s : InputSelection) (o : Option Output) :
    (push_transition s o).addresses = s.addresses := by
  cases o <;> rfl

theorem push_transition_timestamp (s : InputSelection) (o : Option Output) :
    (push_transition s o).timestamp = s.timestamp := by
  cases o <;> rfl

theorem push_transition_available (s : InputSelection) (o : Option Output) :
    (push_transition s o).available_inputs = s.available_inputs := by
  cases o <;> rfl

theorem push_transition_selected (s : InputSelection) (o : Option Output) :
    (push_transition s o).selected_inputs = s.selected_inputs := by
  cases o <;> rfl

theorem transition_input_requirements (hash : Nat → Nat) (s : InputSelection)
    (input : InputSigningData) (ht : Option AliasTransition) :
    (transition_input hash s input ht).1.requirements = s.requirements := by
  unfold transition_input
  split <;> dsimp only <;> (repeat' split) <;> rfl

theorem required_alias_nft_addresses_state (hash : Nat → Nat) (s : InputSelection)
    (input : InputSigningData) (r : Requirement)
    (h : required_alias_nft_addresses hash s input = .ok (some r)) :
    ∀ a t, r = .alias a t → t = .state := by
  unfold required_alias_nft_addresses at h
  dsimp only at h
  split at h
  · exact absurd h (by simp)
  · next pr hpr =>
    split at h
    · next a2 =>
      injection h with h1
      injection h1 with h2
      intro a t hr
      rw [← h2] at hr
      injection hr with _ ht2
      exact ht2.symm
    · next n2 =>
      injection h with h1
      injection h1 with h2
      intro a t hr
      rw [← h2] at hr
      exact absurd hr (by simp)
    · exact absurd h (by simp)

/-- C10: whenever select_input succeeds, any alias requirement newly present
on the requirement stack carries the State transition kind, never
Governance. -/
theorem claim10_alias_requirement_always_state (hash : Nat → Nat) (s : InputSelection)
    (input : InputSigningData) (ht : Option AliasTransition) (s2 : InputSelection)
    (h : select_input hash s input ht = .ok s2) (a : Nat) (t : AliasTransition)
    (hmem : Requirement.alias a t ∈ s2.requirements)
    (hnew : Requirement.alias a t ∉ s.requirements) : t = .state := by
  unfold select_input at h
  dsimp only at h
  split at h
  · exact absurd h (by simp)
  · next req hreq =>
    have hbase : (push_transition (transition_input hash s input ht).1
        (transition_input hash s input ht).2).requirements = s.requirements := by
      rw [push_transition_requirements]
      exact transition_input_requirements hash s input ht
    cases req with
    | none =>
      injection h with h1
      rw [← h1] at hmem
      simp only at hmem
      rw [hbase] at hmem
      exact absurd hmem hnew
    | some r =>
      injection h with h1
      rw [← h1] at hmem
      simp only at hmem
      rw [hbase] at hmem
      cases hmem with
      | head => exact required_alias_nft_addresses_state hash _ input _ hreq a t rfl
      | tail _ hm => exact absurd hm hnew

def chain_addressed_input : InputSigningData :=
  { output := .basic 40 [] [.address (.alias 9)] [], output_id := 5,
    bech32_address := .alias 9 }

/-- Witness for C10: selecting a basic input whose required unlock address is
the alias address 9 pushes the requirement Alias 9 with the State kind. -/
def claim10_state : InputSelection :=
  { empty_state with
    selected_inputs := [chain_addressed_input]
    requirements := [Requirement.alias 9 AliasTransition.state] }

theorem claim10_witness :
    (Requirement.alias 9 AliasTransition.state ∈
      [Requirement.alias 9 AliasTransition.state]) ∧ AliasTransition.state = .state :=
  ⟨by decide,
    claim10_alias_requirement_always_state sample_hash empty_state chain_addressed_input none
      claim10_state (by decide) 9 AliasTransition.state (by decide) (by decide)⟩

end IotaSel

namespace IotaSel

/-- C7 (amended): the core Ed25519 sender branch returns an empty selection
exactly when some already-selected input carries the required address as its
plain Address unlock condition; the comparison ignores expiration conditions
and the timestamp (see the counterexample for an expired input). -/
theorem claim7_sender_already_fulfilled_iff (s : InputSelection) (address : Address) :
    fulfill_ed25519_address_requirement s address = .ok (s, []) ↔
      s.selected_inputs.any (fun i => has_ed25519_address i address) = true := by
  constructor
  · intro h
    by_contra hno
    unfold fulfill_ed25519_address_requirement at h
    rw [if_neg hno] at h
    dsimp only at h
    split at h
    · split at h
      · injection h with h1
        injection h1 with _ h2
        exact absurd h2 (by simp)
      · exact absurd h (by simp)
    · exact absurd h (by simp)
  · intro hany
    unfold fulfill_ed25519_address_requirement
    rw [if_pos hany]

def expired_input : InputSigningData :=
  { output := .basic 60 [] [.address (.ed25519 1), .expiration (.ed25519 2) 5] [],
    output_id := 4, bech32_address := .ed25519 1 }

def claim7_state : InputSelection :=
  { InputSelection.new sample_hash 10 [] [] [] sample_protocol with
    selected_inputs := [expired_input] }

/-- C7 counterexample: at timestamp 10 the expiration (return address
Ed25519 2, instant 5) has fired, so the effective unlocker of the selected
input is Ed25519 2, not the requested Ed25519 1 — yet the fulfiller returns
an empty selection because it only compares the plain Address condition. -/
theorem claim7_counterexample :
    fulfill_ed25519_address_requirement claim7_state (.ed25519 1) = .ok (claim7_state, []) ∧
    required_and_unlocked_address expired_input.output claim7_state.timestamp none =
      .ok (.ed25519 2, none) ∧
    (Address.ed25519 2 : Address) ≠ .ed25519 1 :=
  ⟨by decide, by decide, by decide⟩

/-- Witness for C7: with the expired input selected, the any-test on the
plain address succeeds and the fulfiller returns the empty selection. -/
theorem claim7_witness :
    fulfill_ed25519_address_requirement claim7_state (.ed25519 1) = .ok (claim7_state, []) :=
  (claim7_sender_already_fulfilled_iff claim7_state (.ed25519 1)).mpr (by decide)

end IotaSel

namespace IotaSel

/-- The two errors raised by the emptiness checks at the top of select. -/
def early_error (e : Error) : Prop :=
  e = .noAvailableInputsProvided ∨ e = .noOutputsProvided

theorem scan_unlock_conditions_not_early (ulcs : List UnlockCondition) (t : Nat) (e : Error)
    (h : scan_unlock_conditions ulcs t = .error e) : ¬ early_error e := by
  unfold scan_unlock_conditions at h
  split at h
  · injection h with h1; subst h1; simp [early_error]
  · dsimp only at h
    split at h
    · split at h
      · exact absurd h (by simp)
      · split at h
        · exact absurd h (by simp)
        · injection h with h1; subst h1; simp [early_error]
    · split at h
      · exact absurd h (by simp)
      · injection h with h1; subst h1; simp [early_error]

theorem required_and_unlocked_address_not_early (o : Output) (t : Nat)
    (tr : Option AliasTransition) (e : Error)
    (h : required_and_unlocked_address o t tr = .error e) : ¬ early_error e := by
  unfold required_and_unlocked_address at h
  split at h
  · exact scan_unlock_conditions_not_early _ _ _ h
  · exact scan_unlock_conditions_not_early _ _ _ h
  · split at h
    · split at h
      · exact absurd h (by simp)
      · injection h with h1; subst h1; simp [early_error]
    · split at h
      · exact absurd h (by simp)
      · injection h with h1; subst h1; simp [early_error]
  · exact absurd h (by simp)

theorem required_alias_nft_addresses_not_early (hash : Nat → Nat) (s : InputSelection)
    (input : InputSigningData) (e : Error)
    (h : required_alias_nft_addresses hash s input = .error e) : ¬ early_error e := by
  unfold required_alias_nft_addresses at h
  dsimp only at h
  split at h
  · next e2 he2 =>
    injection h with h1
    subst h1
    exact required_and_unlocked_address_not_early _ _ _ _ he2
  · split at h <;> exact absurd h (by simp)

theorem select_input_not_early (hash : Nat → Nat) (s : InputSelection)
    (input : InputSigningData) (ht : Option AliasTransition) (e : Error)
    (h : select_input hash s input ht = .error e) : ¬ early_error e := by
  unfold select_input at h
  dsimp only at h
  split at h
  · next e2 he2 =>
    injection h with h1
    subst h1
    exact required_alias_nft_addresses_not_early _ _ _ _ he2
  · exact absurd h (by simp)

theorem select_inputs_not_early (hash : Nat → Nat)
    (ps : List (InputSigningData × Option AliasTransition)) :
    ∀ (s : InputSelection) (e : Error),
      select_inputs hash s ps = .error e → ¬ early_error e := by
  induction ps with
  | nil => intro s e h; exact absurd h (by simp [select_inputs])
  | cons p ps ih =>
    intro s e h
    unfold select_inputs at h
    split at h
    · next he => injection h with h1; subst h1; exact select_input_not_early _ _ _ _ _ he
    · next s1 hs1 => exact ih s1 e h

theorem fulfill_amount_requirement_not_early (s : InputSelection) (e : Error)
    (h : fulfill_amount_requirement s = .error e) : ¬ early_error e := by
  unfold fulfill_amount_requirement at h
  dsimp only at h
  split at h
  · exact absurd h (by simp)
  · split at h
    · injection h with h1; subst h1; simp [early_error]
    · exact absurd h (by simp)

theorem pull_tokens_go_not_early (tid deficit : Nat) :
    ∀ (covered : Nat) (pulled pool : List InputSigningData) (e : Error),
      pull_tokens_go tid deficit covered pulled pool = .error e → ¬ early_error e := by
  intro covered pulled pool
  induction pool generalizing covered pulled with
  | nil =>
    intro e h
    unfold pull_tokens_go at h
    split at h
    · injection h with h1; subst h1; simp [early_error]
    · exact absurd h (by simp)
  | cons x xs ih =>
    intro e h
    unfold pull_tokens_go at h
    split at h
    · exact ih _ _ _ h
    · exact absurd h (by simp)

theorem pull_tokens_not_early (s : InputSelection) (tid deficit : Nat) (e : Error)
    (h : pull_tokens s tid deficit = .error e) : ¬ early_error e := by
  unfold pull_tokens at h
  dsimp only at h
  split at h
  · next he =>
    injection h with h1
    subst h1
    exact pull_tokens_go_not_early _ _ _ _ _ _ he
  · exact absurd h (by simp)

theorem native_tokens_go_not_early (tids : List Nat) :
    ∀ (s : InputSelection) (sel : List InputSigningData) (e : Error),
      native_tokens_go s sel tids = .error e → ¬ early_error e := by
  induction tids with
  | nil => intro s sel e h; exact absurd h (by simp [native_tokens_go])
  | cons tid tids ih =>
    intro s sel e h
    unfold native_tokens_go at h
    split at h
    · exact ih _ _ _ h
    · split at h
      · next he =>
        injection h with h1
        subst h1
        exact pull_tokens_not_early _ _ _ _ he
      · exact ih _ _ _ h

theorem fulfill_native_tokens_requirement_not_early (s : InputSelection) (e : Error)
    (h : fulfill_native_tokens_requirement s = .error e) : ¬ early_error e := by
  unfold fulfill_native_tokens_requirement at h
  split at h
  · next he =>
    injection h with h1
    subst h1
    exact native_tokens_go_not_early _ _ _ _ he
  · exact absurd h (by simp)

end IotaSel

namespace IotaSel

theorem fulfill_foundry_requirement_not_early (s : InputSelection) (fid : Nat) (e : Error)
    (h : fulfill_foundry_requirement s fid = .error e) : ¬ early_error e := by
  unfold fulfill_foundry_requirement at h
  dsimp only at h
  split at h
  · exact absurd h (by simp)
  · split at h
    · split at h
      · exact absurd h (by simp)
      · injection h with h1; subst h1; simp [early_error]
    · injection h with h1; subst h1; simp [early_error]

theorem fulfill_sender_requirement_not_early (hash : Nat → Nat) (s : InputSelection)
    (a : Address) (e : Error) (h : fulfill_sender_requirement hash s a = .error e) :
    ¬ early_error e := by
  cases a with
  | ed25519 x =>
    have he := fulfill_ed25519_address_requirement_error s (.ed25519 x) e h
    subst he; simp [early_error]
  | «alias» idx =>
    unfold fulfill_sender_requirement at h
    dsimp only at h
    cases hres : fulfill_alias_requirement hash s idx .state with
    | ok v => rw [hres] at h; exact absurd h (by simp)
    | error e2 =>
      have he2 := fulfill_alias_requirement_error hash s idx .state e2 hres
      subst he2
      rw [hres] at h
      injection h with h1
      subst h1
      simp [early_error]
  | nft idx =>
    unfold fulfill_sender_requirement at h
    dsimp only at h
    cases hres : fulfill_nft_requirement hash s idx with
    | ok v => rw [hres] at h; exact absurd h (by simp)
    | error e2 =>
      have he2 := fulfill_nft_requirement_error hash s idx e2 hres
      subst he2
      rw [hres] at h
      injection h with h1
      subst h1
      simp [early_error]

theorem fulfill_issuer_requirement_not_early (hash : Nat → Nat) (s : InputSelection)
    (a : Address) (e : Error) (h : fulfill_issuer_requirement hash s a = .error e) :
    ¬ early_error e := by
  unfold fulfill_issuer_requirement at h
  cases hres : fulfill_sender_requirement hash s a with
  | ok v => rw [hres] at h; exact absurd h (by simp)
  | error e2 =>
    have hne := fulfill_sender_requirement_not_early hash s a e2 hres
    rw [hres] at h
    split at h
    · rename_i x res heq
      exact absurd heq (by simp)
    · rename_i x a2 heq
      injection h with h1
      subst h1
      simp [early_error]
    · rename_i x1 e3 hnm heq
      injection heq with h2
      injection h with h1
      subst h1
      subst h2
      exact hne

theorem fulfill_requirement_not_early (hash : Nat → Nat) (s : InputSelection)
    (r : Requirement) (e : Error) (h : fulfill_requirement hash s r = .error e) :
    ¬ early_error e := by
  cases r with
  | amount => exact fulfill_amount_requirement_not_early s e h
  | nativeTokens => exact fulfill_native_tokens_requirement_not_early s e h
  | «alias» id t =>
    have := fulfill_alias_requirement_error hash s id t e h
    subst this; simp [early_error]
  | foundry id => exact fulfill_foundry_requirement_not_early s id e h
  | nft id =>
    have := fulfill_nft_requirement_error hash s id e h
    subst this; simp [early_error]
  | sender a => exact fulfill_sender_requirement_not_early hash s a e h
  | issuer a => exact fulfill_issuer_requirement_not_early hash s a e h

theorem selection_loop_not_early (hash : Nat → Nat) (fuel : Nat) :
    ∀ (s : InputSelection) (e : Error),
      selection_loop hash fuel s = .error e → ¬ early_error e := by
  induction fuel with
  | zero =>
    intro s e h
    unfold selection_loop at h
    split at h
    · exact absurd h (by simp)
    · dsimp only at h
      injection h with h1; subst h1; simp [early_error]
  | succ fuel ih =>
    intro s e h
    unfold selection_loop at h
    split at h
    · exact absurd h (by simp)
    · dsimp only at h
      split at h
      · next he =>
        injection h with h1
        subst h1
        exact fulfill_requirement_not_early hash _ _ _ he
      · split at h
        · next he =>
          injection h with h1
          subst h1
          exact select_inputs_not_early hash _ _ _ he
        · exact ih _ _ h

theorem select_required_inputs_not_early (hash : Nat → Nat) (rids : List Nat) :
    ∀ (s : InputSelection) (e : Error),
      select_required_inputs hash s rids = .error e → ¬ early_error e := by
  induction rids with
  | nil => intro s e h; exact absurd h (by simp [select_required_inputs])
  | cons rid rest ih =>
    intro s e h
    unfold select_required_inputs at h
    split at h
    · injection h with h1; subst h1; simp [early_error]
    · split at h
      · split at h
        · split at h
          · next he => injection h with h1; subst h1
                       exact select_input_not_early hash _ _ _ _ he
          · exact ih _ _ h
        · injection h with h1; subst h1; simp [early_error]
      · injection h with h1; subst h1; simp [early_error]

theorem init_not_early (hash : Nat → Nat) (s : InputSelection) (e : Error)
    (h : init hash s = .error e) : ¬ early_error e := by
  unfold init at h
  dsimp only at h
  split at h
  · next he => injection h with h1; subst h1
               exact select_required_inputs_not_early hash _ _ _ he
  · exact absurd h (by simp)

theorem remainder_not_early (s : InputSelection) (e : Error)
    (h : remainder_and_storage_deposit_return_outputs s = .error e) : ¬ early_error e := by
  unfold remainder_and_storage_deposit_return_outputs at h
  split at h
  · injection h with h1; subst h1; simp [early_error]
  · split at h
    · exact absurd h (by simp)
    · split at h
      · exact absurd h (by simp)
      · split at h
        · injection h with h1; subst h1; simp [early_error]
        · injection h with h1; subst h1; simp [early_error]

end IotaSel

namespace IotaSel

theorem select_tail_not_early (hash : Nat → Nat) (fuel : Nat) (s : InputSelection) (e : Error)
    (h : (match init hash s with
          | .error e => .error e
          | .ok s1 =>
            match selection_loop hash fuel s1 with
            | .error e => .error e
            | .ok s2 =>
              match remainder_and_storage_deposit_return_outputs s2 with
              | .error e => .error e
              | .ok (remainder, sdrs) =>
                Except.ok (Selected.mk (sort_input_signing_data hash s2.selected_inputs)
                  (final_outputs s2.outputs remainder sdrs) remainder)) = Except.error e) :
    ¬ early_error e := by
  cases hinit : init hash s with
  | error e2 =>
    rw [hinit] at h
    injection h with h1
    subst h1
    exact init_not_early _ _ _ hinit
  | ok s1 =>
    rw [hinit] at h
    dsimp only at h
    cases hloop : selection_loop hash fuel s1 with
    | error e2 =>
      rw [hloop] at h
      injection h with h1
      subst h1
      exact selection_loop_not_early _ _ _ _ hloop
    | ok s2 =>
      rw [hloop] at h
      dsimp only at h
      cases hrem : remainder_and_storage_deposit_return_outputs s2 with
      | error e2 =>
        rw [hrem] at h
        injection h with h1
        subst h1
        exact remainder_not_early _ _ hrem
      | ok pr =>
        rw [hrem] at h
        obtain ⟨rem, sdrs⟩ := pr
        exact absurd h (by simp)

/-- C6 (amended): select returns NoAvailableInputsProvided exactly when the
pool is empty after filter_inputs has dropped unusable inputs (a nonempty
caller pool can still trigger it, see the counterexample), and
NoOutputsProvided exactly when the filtered pool is nonempty, the requested
outputs are empty and no burn is set; both checks precede all selection
work. -/
theorem claim6_early_error_conditions (hash : Nat → Nat) (fuel : Nat) (s : InputSelection) :
    (select hash fuel s = .error .noAvailableInputsProvided ↔
      (filter_inputs s).available_inputs = []) ∧
    (select hash fuel s = .error .noOutputsProvided ↔
      ((filter_inputs s).available_inputs ≠ [] ∧ s.outputs = [] ∧ s.burn = none)) := by
  unfold select
  dsimp only
  by_cases h1 : (filter_inputs s).available_inputs.isEmpty = true
  · rw [if_pos h1]
    have h1e : (filter_inputs s).available_inputs = [] := by
      simpa [List.isEmpty_iff] using h1
    constructor
    · exact iff_of_true rfl h1e
    · refine iff_of_false (by simp) ?_
      rintro ⟨hne, _, _⟩
      exact hne h1e
  · rw [if_neg h1]
    have h1e : (filter_inputs s).available_inputs ≠ [] := by
      simpa [List.isEmpty_iff] using h1
    by_cases h2 : ((filter_inputs s).outputs.isEmpty && (filter_inputs s).burn.isNone) = true
    · rw [if_pos h2]
      have h2e : s.outputs = [] ∧ s.burn = none := by
        simpa [filter_inputs, Bool.and_eq_true, List.isEmpty_iff,
          Option.isNone_iff_eq_none] using h2
      constructor
      · exact iff_of_false (by simp) (fun hav => h1e hav)
      · exact iff_of_true rfl ⟨h1e, h2e.1, h2e.2⟩
    · rw [if_neg h2]
      constructor
      · refine iff_of_false (fun hc => ?_) (fun hav => h1e hav)
        exact select_tail_not_early hash fuel (filter_inputs s) _ hc (Or.inl rfl)
      · refine iff_of_false (fun hc => ?_) (fun hrhs => ?_)
        · exact select_tail_not_early hash fuel (filter_inputs s) _ hc (Or.inr rfl)
        · obtain ⟨_, ho, hb⟩ := hrhs
          apply h2
          simp [filter_inputs, ho, hb]

/-- C6 counterexample: the caller-supplied pool holds one input, yet select
returns NoAvailableInputsProvided, because the input is time-locked until 10
and filter_inputs drops it before the emptiness check; so the error is not
raised exactly when the caller pool is empty. -/
theorem claim6_counterexample :
    select sample_hash 5 (InputSelection.new sample_hash 5 [clock_input] [clock_output]
      [.ed25519 1] sample_protocol) = .error .noAvailableInputsProvided ∧
    (InputSelection.new sample_hash 5 [clock_input] [clock_output]
      [.ed25519 1] sample_protocol).available_inputs ≠ [] :=
  ⟨by decide, by decide⟩

def no_outputs_state : InputSelection :=
  InputSelection.new sample_hash 7 [sample_input] [] [.ed25519 1] sample_protocol

/-- Witness for C6: a usable pool with no outputs and no burn returns
NoOutputsProvided. -/
theorem claim6_witness :
    select sample_hash 5 no_outputs_state = .error .noOutputsProvided :=
  (claim6_early_error_conditions sample_hash 5 no_outputs_state).2.mpr (by decide)

end IotaSel

namespace IotaSel

/-- State invariant for C9: addresses and timestamp are pinned, and every
input in the pool or already selected passes the filter predicate. -/
def keep_state (addrs : List Address) (t : Nat) (s : InputSelection) : Prop :=
  s.addresses = addrs ∧ s.timestamp = t ∧
  (∀ i ∈ s.available_inputs, keep_input addrs t i = true) ∧
  (∀ i ∈ s.selected_inputs, keep_input addrs t i = true)

theorem swap_remove_subset (l : List α) (i : Nat) : ∀ y ∈ swap_remove l i, y ∈ l := by
  intro y hy
  unfold swap_remove at hy
  split at hy
  · exact hy
  · next last hlast =>
    have h1 : y ∈ l.set i last := List.dropLast_subset _ hy
    rcases List.mem_or_eq_of_mem_set h1 with h | h
    · exact h
    · subst h
      exact List.mem_of_mem_getLast? hlast

theorem take_at_mem (l : List α) (i : Nat) (x : α) (rest : List α)
    (h : take_at l i = some (x, rest)) : x ∈ l ∧ ∀ y ∈ rest, y ∈ l := by
  unfold take_at at h
  split at h
  · next x2 hget =>
    injection h with h1
    have hx : x2 = x := congrArg Prod.fst h1
    have hr : swap_remove l i = rest := congrArg Prod.snd h1
    subst hx
    subst hr
    exact ⟨List.get?_mem hget, swap_remove_subset l i⟩
  · exact absurd h (by simp)

theorem mem_insertion_sorted_amount (l : List InputSigningData) (y : InputSigningData) :
    y ∈ l.insertionSort (fun a b => a.output.amount ≤ b.output.amount) ↔ y ∈ l :=
  (List.perm_insertionSort (fun a b => a.output.amount ≤ b.output.amount) l).mem_iff

theorem fulfill_alias_requirement_keeps (hash : Nat → Nat) (addrs : List Address) (t : Nat)
    (s s1 : InputSelection) (id : Nat) (tr : AliasTransition)
    (chosen : List (InputSigningData × Option AliasTransition))
    (h : fulfill_alias_requirement hash s id tr = .ok (s1, chosen))
    (hk : keep_state addrs t s) :
    keep_state addrs t s1 ∧ ∀ p ∈ chosen, keep_input addrs t p.1 = true := by
  obtain ⟨ha, ht2, hav, hsel⟩ := hk
  unfold fulfill_alias_requirement at h
  split at h
  · injection h with h1
    have hs : s = s1 := congrArg Prod.fst h1
    have hc : ([] : List (InputSigningData × Option AliasTransition)) = chosen :=
      congrArg Prod.snd h1
    subst hs
    subst hc
    exact ⟨⟨ha, ht2, hav, hsel⟩, by simp⟩
  · split at h
    · split at h
      · next x rest htake =>
        injection h with h1
        have hs : _ = s1 := congrArg Prod.fst h1
        have hc : _ = chosen := congrArg Prod.snd h1
        subst hs
        subst hc
        obtain ⟨hx, hrest⟩ := take_at_mem _ _ _ _ htake
        refine ⟨⟨ha, ht2, fun i hi => hav i (hrest i hi), hsel⟩, ?_⟩
        intro p hp
        simp at hp
        rw [hp]
        exact hav x hx
      · exact absurd h (by simp)
    · exact absurd h (by simp)

theorem fulfill_nft_requirement_keeps (hash : Nat → Nat) (addrs : List Address) (t : Nat)
    (s s1 : InputSelection) (id : Nat)
    (chosen : List (InputSigningData × Option AliasTransition))
    (h : fulfill_nft_requirement hash s id = .ok (s1, chosen))
    (hk : keep_state addrs t s) :
    keep_state addrs t s1 ∧ ∀ p ∈ chosen, keep_input addrs t p.1 = true := by
  obtain ⟨ha, ht2, hav, hsel⟩ := hk
  unfold fulfill_nft_requirement at h
  split at h
  · injection h with h1
    have hs : s = s1 := congrArg Prod.fst h1
    have hc : ([] : List (InputSigningData × Option AliasTransition)) = chosen :=
      congrArg Prod.snd h1
    subst hs
    subst hc
    exact ⟨⟨ha, ht2, hav, hsel⟩, by simp⟩
  · split at h
    · split at h
      · next x rest htake =>
        injection h with h1
        have hs : _ = s1 := congrArg Prod.fst h1
        have hc : _ = chosen := congrArg Prod.snd h1
        subst hs
        subst hc
        obtain ⟨hx, hrest⟩ := take_at_mem _ _ _ _ htake
        refine ⟨⟨ha, ht2, fun i hi => hav i (hrest i hi), hsel⟩, ?_⟩
        intro p hp
        simp at hp
        rw [hp]
        exact hav x hx
      · exact absurd h (by simp)
    · exact absurd h (by simp)

theorem fulfill_ed25519_address_requirement_keeps (addrs : List Address) (t : Nat)
    (s s1 : InputSelection) (a : Address)
    (chosen : List (InputSigningData × Option AliasTransition))
    (h : fulfill_ed25519_address_requirement s a = .ok (s1, chosen))
    (hk : keep_state addrs t s) :
    keep_state addrs t s1 ∧ ∀ p ∈ chosen, keep_input addrs t p.1 = true := by
  obtain ⟨ha, ht2, hav, hsel⟩ := hk
  unfold fulfill_ed25519_address_requirement at h
  split at h
  · injection h with h1
    have hs : s = s1 := congrArg Prod.fst h1
    have hc : ([] : List (InputSigningData × Option AliasTransition)) = chosen :=
      congrArg Prod.snd h1
    subst hs
    subst hc
    exact ⟨⟨ha, ht2, hav, hsel⟩, by simp⟩
  · dsimp only at h
    split at h
    · split at h
      · next x rest htake =>
        injection h with h1
        have hs : _ = s1 := congrArg Prod.fst h1
        have hc : _ = chosen := congrArg Prod.snd h1
        subst hs
        subst hc
        obtain ⟨hx, hrest⟩ := take_at_mem _ _ _ _ htake
        refine ⟨⟨ha, ht2, fun i hi => hav i (hrest i hi), hsel⟩, ?_⟩
        intro p hp
        simp at hp
        rw [hp]
        exact hav x hx
      · exact absurd h (by simp)
    · exact absurd h (by simp)

theorem fulfill_sender_requirement_keeps (hash : Nat → Nat) (addrs : List Address) (t : Nat)
    (s s1 : InputSelection) (a : Address)
    (chosen : List (InputSigningData × Option AliasTransition))
    (h : fulfill_sender_requirement hash s a = .ok (s1, chosen))
    (hk : keep_state addrs t s) :
    keep_state addrs t s1 ∧ ∀ p ∈ chosen, keep_input addrs t p.1 = true := by
  cases a with
  | ed25519 x => exact fulfill_ed25519_address_requirement_keeps addrs t s s1 _ chosen h hk
  | «alias» idx =>
    unfold fulfill_sender_requirement at h
    dsimp only at h
    cases hres : fulfill_alias_requirement hash s idx .state with
    | ok v =>
      rw [hres] at h
      injection h with h1
      obtain ⟨v1, v2⟩ := v
      have hs : v1 = s1 := congrArg Prod.fst h1
      have hc : v2 = chosen := congrArg Prod.snd h1
      subst hs; subst hc
      exact fulfill_alias_requirement_keeps hash addrs t s _ idx .state _ hres hk
    | error e2 =>
      rw [hres] at h
      split at h
      · rename_i res heq
        exact absurd heq (by simp)
      all_goals exact absurd h (by simp)
  | nft idx =>
    unfold fulfill_sender_requirement at h
    dsimp only at h
    cases hres : fulfill_nft_requirement hash s idx with
    | ok v =>
      rw [hres] at h
      injection h with h1
      obtain ⟨v1, v2⟩ := v
      have hs : v1 = s1 := congrArg Prod.fst h1
      have hc : v2 = chosen := congrArg Prod.snd h1
      subst hs; subst hc
      exact fulfill_nft_requirement_keeps hash addrs t s _ idx _ hres hk
    | error e2 =>
      rw [hres] at h
      split at h
      · rename_i res heq
        exact absurd heq (by simp)
      all_goals exact absurd h (by simp)

theorem fulfill_issuer_requirement_keeps (hash : Nat → Nat) (addrs : List Address) (t : Nat)
    (s s1 : InputSelection) (a : Address)
    (chosen : List (InputSigningData × Option AliasTransition))
    (h : fulfill_issuer_requirement hash s a = .ok (s1, chosen))
    (hk : keep_state addrs t s) :
    keep_state addrs t s1 ∧ ∀ p ∈ chosen, keep_input addrs t p.1 = true := by
  unfold fulfill_issuer_requirement at h
  cases hres : fulfill_sender_requirement hash s a with
  | ok v =>
    rw [hres] at h
    injection h with h1
    obtain ⟨v1, v2⟩ := v
    have hs : v1 = s1 := congrArg Prod.fst h1
    have hc : v2 = chosen := congrArg Prod.snd h1
    subst hs; subst hc
    exact fulfill_sender_requirement_keeps hash addrs t s _ a _ hres hk
  | error e2 =>
    rw [hres] at h
    split at h
    · rename_i res heq
      exact absurd heq (by simp)
    all_goals exact absurd h (by simp)

end IotaSel

namespace IotaSel

theorem pull_lowest_parts_mem (diff covered : Nat) (pool : List InputSigningData) :
    (∀ y ∈ (pull_lowest diff covered pool).2.1, y ∈ pool) ∧
    (∀ y ∈ (pull_lowest diff covered pool).2.2, y ∈ pool) := by
  obtain ⟨hsplit, _, _, _⟩ := pull_lowest_spec diff pool covered
  constructor <;> intro y hy <;> rw [← hsplit] <;> simp [hy]

theorem fulfill_amount_requirement_keeps (addrs : List Address) (t : Nat)
    (s s1 : InputSelection)
    (chosen : List (InputSigningData × Option AliasTransition))
    (h : fulfill_amount_requirement s = .ok (s1, chosen))
    (hk : keep_state addrs t s) :
    keep_state addrs t s1 ∧ ∀ p ∈ chosen, keep_input addrs t p.1 = true := by
  obtain ⟨ha, ht2, hav, hsel⟩ := hk
  unfold fulfill_amount_requirement at h
  dsimp only at h
  split at h
  · injection h with h1
    have hs : s = s1 := congrArg Prod.fst h1
    have hc : ([] : List (InputSigningData × Option AliasTransition)) = chosen :=
      congrArg Prod.snd h1
    subst hs
    subst hc
    exact ⟨⟨ha, ht2, hav, hsel⟩, by simp⟩
  · split at h
    · exact absurd h (by simp)
    · injection h with h1
      have hs : _ = s1 := congrArg Prod.fst h1
      have hc : _ = chosen := congrArg Prod.snd h1
      subst hs
      subst hc
      refine ⟨⟨ha, ht2, ?_, hsel⟩, ?_⟩
      · intro i hi
        apply hav
        have h2 := (pull_lowest_parts_mem _ 0 _).2 i hi
        exact (mem_insertion_sorted_amount _ i).mp h2
      · intro p hp
        simp only [List.mem_map] at hp
        obtain ⟨i, hi, hpi⟩ := hp
        rw [← hpi]
        apply hav
        have h2 := (pull_lowest_parts_mem _ 0 _).1 i hi
        exact (mem_insertion_sorted_amount _ i).mp h2

theorem foldl_erase_subset (pulled : List InputSigningData) :
    ∀ l, ∀ y ∈ pulled.foldl List.erase l, y ∈ l := by
  induction pulled with
  | nil => intro l y hy; exact hy
  | cons x xs ih =>
    intro l y hy
    have := ih (l.erase x) y (by simpa using hy)
    exact List.erase_subset x l this

theorem pull_tokens_go_mem (tid deficit : Nat) :
    ∀ (covered : Nat) (acc pool pulled : List InputSigningData),
      pull_tokens_go tid deficit covered acc pool = .ok pulled →
      ∀ y ∈ pulled, y ∈ acc ∨ y ∈ pool := by
  intro covered acc pool
  induction pool generalizing covered acc with
  | nil =>
    intro pulled h y hy
    unfold pull_tokens_go at h
    split at h
    · exact absurd h (by simp)
    · injection h with h1
      subst h1
      exact Or.inl hy
  | cons x xs ih =>
    intro pulled h y hy
    unfold pull_tokens_go at h
    split at h
    · rcases ih _ _ _ h y hy with hacc | hxs
      · rcases (by simpa using hacc : y ∈ acc ∨ y = x) with h2 | h2
        · exact Or.inl h2
        · exact Or.inr (by simp [h2])
      · exact Or.inr (by simp [hxs])
    · injection h with h1
      subst h1
      exact Or.inl hy

theorem pull_tokens_keeps (addrs : List Address) (t : Nat) (s s2 : InputSelection)
    (tid deficit : Nat) (pulled : List InputSigningData)
    (h : pull_tokens s tid deficit = .ok (s2, pulled))
    (hk : keep_state addrs t s) :
    keep_state addrs t s2 ∧ ∀ y ∈ pulled, keep_input addrs t y = true := by
  obtain ⟨ha, ht2, hav, hsel⟩ := hk
  unfold pull_tokens at h
  dsimp only at h
  split at h
  · exact absurd h (by simp)
  · next pulled2 hgo =>
    injection h with h1
    have hs : _ = s2 := congrArg Prod.fst h1
    have hc : pulled2 = pulled := congrArg Prod.snd h1
    subst hs
    subst hc
    have hpmem : ∀ y ∈ pulled2, y ∈ s.available_inputs := by
      intro y hy
      rcases pull_tokens_go_mem tid deficit 0 [] _ _ hgo y hy with hacc | hpool
      · exact absurd hacc (by simp)
      · have h2 : y ∈ (s.available_inputs.filter
            (fun i => decide (0 < token_amount i.output.native_tokens tid))) := by
          exact ((List.perm_insertionSort _ _).mem_iff).mp hpool
        exact (List.mem_filter.mp h2).1
    refine ⟨⟨ha, ht2, ?_, hsel⟩, fun y hy => hav y (hpmem y hy)⟩
    intro i hi
    exact hav i (foldl_erase_subset pulled2 _ i hi)

theorem native_tokens_go_keeps (addrs : List Address) (t : Nat) (tids : List Nat) :
    ∀ (s : InputSelection) (acc : List InputSigningData) (s1 : InputSelection)
      (sel : List InputSigningData),
      native_tokens_go s acc tids = .ok (s1, sel) → keep_state addrs t s →
      (∀ y ∈ acc, keep_input addrs t y = true) →
      keep_state addrs t s1 ∧ ∀ y ∈ sel, keep_input addrs t y = true := by
  induction tids with
  | nil =>
    intro s acc s1 sel h hk hacc
    unfold native_tokens_go at h
    injection h with h1
    have hs : s = s1 := congrArg Prod.fst h1
    have hc : acc = sel := congrArg Prod.snd h1
    subst hs
    subst hc
    exact ⟨hk, hacc⟩
  | cons tid tids ih =>
    intro s acc s1 sel h hk hacc
    unfold native_tokens_go at h
    split at h
    · exact ih s acc s1 sel h hk hacc
    · split at h
      · exact absurd h (by simp)
      · next s2 pulled hpull =>
        obtain ⟨hk2, hpl⟩ := pull_tokens_keeps addrs t s s2 _ _ pulled hpull hk
        refine ih s2 (acc ++ pulled) s1 sel h hk2 ?_
        intro y hy
        rcases List.mem_append.mp hy with h2 | h2
        · exact hacc y h2
        · exact hpl y h2

theorem fulfill_native_tokens_requirement_keeps (addrs : List Address) (t : Nat)
    (s s1 : InputSelection)
    (chosen : List (InputSigningData × Option AliasTransition))
    (h : fulfill_native_tokens_requirement s = .ok (s1, chosen))
    (hk : keep_state addrs t s) :
    keep_state addrs t s1 ∧ ∀ p ∈ chosen, keep_input addrs t p.1 = true := by
  unfold fulfill_native_tokens_requirement at h
  split at h
  · exact absurd h (by simp)
  · next s2 sel hgo =>
    injection h with h1
    have hs : s2 = s1 := congrArg Prod.fst h1
    have hc : _ = chosen := congrArg Prod.snd h1
    subst hs
    subst hc
    obtain ⟨hk1, hsel⟩ := native_tokens_go_keeps addrs t _ s [] _ _ hgo hk (by simp)
    refine ⟨hk1, ?_⟩
    intro p hp
    simp at hp
    obtain ⟨i, hi, hpi⟩ := hp
    rw [← hpi]
    exact hsel i hi

theorem fulfill_foundry_requirement_keeps (addrs : List Address) (t : Nat)
    (s s1 : InputSelection) (fid : Nat)
    (chosen : List (InputSigningData × Option AliasTransition))
    (h : fulfill_foundry_requirement s fid = .ok (s1, chosen))
    (hk : keep_state addrs t s) :
    keep_state addrs t s1 ∧ ∀ p ∈ chosen, keep_input addrs t p.1 = true := by
  obtain ⟨ha, ht2, hav, hsel⟩ := hk
  unfold fulfill_foundry_requirement at h
  dsimp only at h
  split at h
  · injection h with h1
    have hs : _ = s1 := congrArg Prod.fst h1
    have hc : ([] : List (InputSigningData × Option AliasTransition)) = chosen :=
      congrArg Prod.snd h1
    subst hs
    subst hc
    exact ⟨⟨ha, ht2, hav, hsel⟩, by simp⟩
  · split at h
    · split at h
      · next x rest htake =>
        injection h with h1
        have hs : _ = s1 := congrArg Prod.fst h1
        have hc : _ = chosen := congrArg Prod.snd h1
        subst hs
        subst hc
        obtain ⟨hx, hrest⟩ := take_at_mem _ _ _ _ htake
        refine ⟨⟨ha, ht2, fun i hi => hav i (hrest i hi), hsel⟩, ?_⟩
        intro p hp
        simp at hp
        rw [hp]
        exact hav x hx
      · exact absurd h (by simp)
    · exact absurd h (by simp)

theorem fulfill_requirement_keeps (hash : Nat → Nat) (addrs : List Address) (t : Nat)
    (s s1 : InputSelection) (r : Requirement)
    (chosen : List (InputSigningData × Option AliasTransition))
    (h : fulfill_requirement hash s r = .ok (s1, chosen))
    (hk : keep_state addrs t s) :
    keep_state addrs t s1 ∧ ∀ p ∈ chosen, keep_input addrs t p.1 = true := by
  cases r with
  | amount => exact fulfill_amount_requirement_keeps addrs t s s1 chosen h hk
  | nativeTokens => exact fulfill_native_tokens_requirement_keeps addrs t s s1 chosen h hk
  | «alias» id tr => exact fulfill_alias_requirement_keeps hash addrs t s s1 id tr chosen h hk
  | foundry id => exact fulfill_foundry_requirement_keeps addrs t s s1 id chosen h hk
  | nft id => exact fulfill_nft_requirement_keeps hash addrs t s s1 id chosen h hk
  | sender a => exact fulfill_sender_requirement_keeps hash addrs t s s1 a chosen h hk
  | issuer a => exact fulfill_issuer_requirement_keeps hash addrs t s s1 a chosen h hk

end IotaSel

namespace IotaSel

theorem transition_input_state (hash : Nat → Nat) (s : InputSelection)
    (input : InputSigningData) (ht : Option AliasTransition) :
    ∃ ac, (transition_input hash s input ht).1 =
      { s with automatically_transitioned := ac } := by
  unfold transition_input
  split <;> dsimp only <;> (repeat' split) <;> exact ⟨_, rfl⟩

theorem select_input_keeps (hash : Nat → Nat) (addrs : List Address) (t : Nat)
    (s : InputSelection) (input : InputSigningData) (ht : Option AliasTransition)
    (s2 : InputSelection) (h : select_input hash s input ht = .ok s2)
    (hk : keep_state addrs t s) (hi : keep_input addrs t input = true) :
    keep_state addrs t s2 := by
  obtain ⟨ha, ht2, hav, hsel⟩ := hk
  obtain ⟨ac, hac⟩ := transition_input_state hash s input ht
  have haddr : (push_transition (transition_input hash s input ht).1
      (transition_input hash s input ht).2).addresses = addrs := by
    rw [push_transition_addresses, hac]
    exact ha
  have htime : (push_transition (transition_input hash s input ht).1
      (transition_input hash s input ht).2).timestamp = t := by
    rw [push_transition_timestamp, hac]
    exact ht2
  have havail : (push_transition (transition_input hash s input ht).1
      (transition_input hash s input ht).2).available_inputs = s.available_inputs := by
    rw [push_transition_available, hac]
  have hselp : (push_transition (transition_input hash s input ht).1
      (transition_input hash s input ht).2).selected_inputs = s.selected_inputs := by
    rw [push_transition_selected, hac]
  unfold select_input at h
  dsimp only at h
  split at h
  · exact absurd h (by simp)
  · next req hreq =>
    injection h with h1
    rw [← h1]
    cases req with
    | none =>
      dsimp only
      refine ⟨haddr, htime, by rw [havail]; exact hav, ?_⟩
      intro i hmem
      rw [hselp] at hmem
      rcases List.mem_append.mp hmem with h2 | h2
      · exact hsel i h2
      · rw [List.mem_singleton.mp h2]
        exact hi
    | some r =>
      dsimp only
      refine ⟨haddr, htime, by rw [havail]; exact hav, ?_⟩
      intro i hmem
      rw [hselp] at hmem
      rcases List.mem_append.mp hmem with h2 | h2
      · exact hsel i h2
      · rw [List.mem_singleton.mp h2]
        exact hi

theorem select_inputs_keeps (hash : Nat → Nat) (addrs : List Address) (t : Nat)
    (ps : List (InputSigningData × Option AliasTransition)) :
    ∀ (s s2 : InputSelection), select_inputs hash s ps = .ok s2 →
      keep_state addrs t s → (∀ p ∈ ps, keep_input addrs t p.1 = true) →
      keep_state addrs t s2 := by
  induction ps with
  | nil =>
    intro s s2 h hk _
    unfold select_inputs at h
    injection h with h1
    rw [← h1]
    exact hk
  | cons p ps ih =>
    intro s s2 h hk hps
    unfold select_inputs at h
    split at h
    · exact absurd h (by simp)
    · next s1 hs1 =>
      refine ih s1 s2 h ?_ (fun q hq => hps q (by simp [hq]))
      exact select_input_keeps hash addrs t s p.1 p.2 s1 hs1 hk (hps p (by simp))

theorem selection_loop_keeps (hash : Nat → Nat) (addrs : List Address) (t : Nat)
    (fuel : Nat) : ∀ (s s2 : InputSelection), selection_loop hash fuel s = .ok s2 →
      keep_state addrs t s → keep_state addrs t s2 := by
  induction fuel with
  | zero =>
    intro s s2 h hk
    unfold selection_loop at h
    split at h
    · injection h with h1; rw [← h1]; exact hk
    · dsimp only at h; exact absurd h (by simp)
  | succ fuel ih =>
    intro s s2 h hk
    unfold selection_loop at h
    split at h
    · injection h with h1; rw [← h1]; exact hk
    · next r rest hreq =>
      dsimp only at h
      split at h
      · exact absurd h (by simp)
      · next s1 chosen hful =>
        split at h
        · exact absurd h (by simp)
        · next s3 hsel3 =>
          have hkr : keep_state addrs t { s with requirements := rest } := hk
          obtain ⟨hk1, hchosen⟩ := fulfill_requirement_keeps hash addrs t
            { s with requirements := rest } s1 r chosen hful hkr
          have hk3 := select_inputs_keeps hash addrs t chosen s1 s3 hsel3 hk1 hchosen
          exact ih s3 s2 h hk3

theorem select_required_inputs_keeps (hash : Nat → Nat) (addrs : List Address) (t : Nat)
    (rids : List Nat) : ∀ (s s2 : InputSelection),
      select_required_inputs hash s rids = .ok s2 → keep_state addrs t s →
      keep_state addrs t s2 := by
  induction rids with
  | nil =>
    intro s s2 h hk
    unfold select_required_inputs at h
    injection h with h1
    rw [← h1]
    exact hk
  | cons rid rest ih =>
    intro s s2 h hk
    obtain ⟨ha, ht2, hav, hsel⟩ := hk
    unfold select_required_inputs at h
    split at h
    · exact absurd h (by simp)
    · split at h
      · split at h
        · next x pool htake =>
          split at h
          · exact absurd h (by simp)
          · next s1 hs1 =>
            obtain ⟨hx, hpool⟩ := take_at_mem _ _ _ _ htake
            have hk1 : keep_state addrs t { s with available_inputs := pool } :=
              ⟨ha, ht2, fun i hi => hav i (hpool i hi), hsel⟩
            have hk2 := select_input_keeps hash addrs t _ x none s1 hs1 hk1 (hav x hx)
            exact ih s1 s2 h hk2
        · exact absurd h (by simp)
      · exact absurd h (by simp)

theorem init_keeps (hash : Nat → Nat) (addrs : List Address) (t : Nat)
    (s s2 : InputSelection) (h : init hash s = .ok s2) (hk : keep_state addrs t s) :
    keep_state addrs t s2 := by
  obtain ⟨ha, ht2, hav, hsel⟩ := hk
  unfold init at h
  dsimp only at h
  split at h
  · exact absurd h (by simp)
  · next s1 hs1 =>
    injection h with h1
    rw [← h1]
    have hk1 := select_required_inputs_keeps hash addrs t _ _ s1 hs1
      ⟨ha, ht2, fun i hi => hav i (List.mem_of_mem_filter hi), hsel⟩
    obtain ⟨ha1, ht1, hav1, hsel1⟩ := hk1
    exact ⟨ha1, ht1, hav1, hsel1⟩

end IotaSel

namespace IotaSel

/-- The output is not time-locked at the given timestamp (its unlock
conditions exist and contain no future timelock). -/
def not_time_locked_at (t : Nat) (i : InputSigningData) : Prop :=
  match i.output.unlock_conditions with
  | some ulcs => is_time_locked ulcs t = false
  | none => False

/-- The required unlock address of the input (with no alias-transition hint)
belongs to the known address set. -/
def unlock_address_known (addrs : List Address) (t : Nat) (i : InputSigningData) : Prop :=
  match required_and_unlocked_address i.output t none with
  | .ok pr => addrs.contains pr.1 = true
  | .error _ => False

theorem keep_input_spec (addrs : List Address) (t : Nat) (i : InputSigningData)
    (h : keep_input addrs t i = true) :
    i.output.is_alias = true ∨
      ((i.output.is_basic || i.output.is_foundry || i.output.is_nft) = true ∧
       not_time_locked_at t i ∧ unlock_address_known addrs t i) := by
  unfold keep_input at h
  split at h
  · next halias => exact Or.inl halias
  · next halias =>
    split at h
    · exact absurd h (by simp)
    · next hkinds =>
      right
      refine ⟨?_, ?_⟩
      · revert hkinds
        cases hb : i.output.is_basic <;> cases hf : i.output.is_foundry <;>
          cases hn : i.output.is_nft <;> simp
      · split at h
        · exact absurd h (by simp)
        · next ulcs hulcs =>
          split at h
          · exact absurd h (by simp)
          · next htl =>
            constructor
            · unfold not_time_locked_at
              rw [hulcs]
              simpa using htl
            · unfold unlock_address_known
              split at h
              · next pr hpr => exact h
              · exact absurd h (by simp)

/-- C9: for every successful select() started with an empty selected list, no
selected input other than an alias output is time-locked at the configured
timestamp, and every selected non-alias input's required unlock address
belongs to the known address set; filter_inputs removes violating inputs
before any requirement is processed, while alias inputs are always
retained. -/
theorem claim9_selected_inputs_unlockable (hash : Nat → Nat) (fuel : Nat)
    (s : InputSelection) (sel : Selected) (hsel0 : s.selected_inputs = [])
    (h : select hash fuel s = .ok sel) :
    ∀ i ∈ sel.inputs, i.output.is_alias = true ∨
      ((i.output.is_basic || i.output.is_foundry || i.output.is_nft) = true ∧
       not_time_locked_at s.timestamp i ∧
       unlock_address_known s.addresses s.timestamp i) := by
  have hk0 : keep_state s.addresses s.timestamp (filter_inputs s) := by
    refine ⟨rfl, rfl, ?_, ?_⟩
    · intro i hi
      exact (List.mem_filter.mp hi).2
    · intro i hi
      unfold filter_inputs at hi
      dsimp only at hi
      rw [hsel0] at hi
      exact absurd hi (by simp)
  unfold select at h
  dsimp only at h
  split at h
  · exact absurd h (by simp)
  · split at h
    · exact absurd h (by simp)
    · split at h
      · exact absurd h (by simp)
      · next s1 hinit =>
        split at h
        · exact absurd h (by simp)
        · next s2 hloop =>
          split at h
          · exact absurd h (by simp)
          · next rem sdrs hrem =>
            injection h with h1
            subst h1
            have hk1 := init_keeps hash s.addresses s.timestamp _ s1 hinit hk0
            have hk2 := selection_loop_keeps hash s.addresses s.timestamp fuel
              s1 s2 hloop hk1
            intro i hi
            have hmem : i ∈ s2.selected_inputs :=
              (sort_input_signing_data_mem hash s2.selected_inputs i).mp hi
            exact keep_input_spec s.addresses s.timestamp i (hk2.2.2.2 i hmem)

/-- Witness for C9: the selected basic input of the concrete successful run
is not time-locked at timestamp 7 and its Ed25519 address is known. -/
theorem claim9_witness :
    sample_input.output.is_alias = true ∨
      ((sample_input.output.is_basic || sample_input.output.is_foundry ||
        sample_input.output.is_nft) = true ∧
       not_time_locked_at sample_state.timestamp sample_input ∧
       unlock_address_known sample_state.addresses sample_state.timestamp sample_input) :=
  claim9_selected_inputs_unlockable sample_hash 5 sample_state sample_selected
    (by decide) (by decide) sample_input (by decide)

end IotaSel

namespace IotaSel

/-- An alias or NFT address (the kinds that name a chain). -/
def is_chain_address : Address → Bool
  | .alias _ => true
  | .nft _ => true
  | .ed25519 _ => false

theorem ed25519_kind_ne_chain (a c : Address) (ha : a.is_ed25519_kind = true)
    (hc : is_chain_address c = true) : a ≠ c := by
  cases a <;> cases c <;> simp_all [Address.is_ed25519_kind, is_chain_address]

theorem findIdx_decomp (p : InputSigningData → Bool) (l : List InputSigningData)
    (h : l.findIdx p < l.length) :
    ∃ a x b, l = a ++ x :: b ∧ a.length = l.findIdx p ∧ p x = true ∧
      ∀ y ∈ a, p y = false := by
  induction l with
  | nil => simp at h
  | cons z zs ih =>
    by_cases hp : p z = true
    · exact ⟨[], z, zs, by simp, by simp [List.findIdx_cons, hp], hp, by simp⟩
    · have hz : p z = false := by simpa using hp
      have h2 : zs.findIdx p < zs.length := by
        rw [List.findIdx_cons, hz] at h
        simpa using h
      obtain ⟨a, x, b, hsplit, hlen, hx, ha⟩ := ih h2
      refine ⟨z :: a, x, b, by simp [hsplit], ?_, hx, ?_⟩
      · simp [List.findIdx_cons, hz, hlen]
      · intro y hy
        rcases List.mem_cons.mp hy with h3 | h3
        · rw [h3]; exact hz
        · exact ha y h3

theorem findIdx?_first (p : InputSigningData → Bool) (b : List InputSigningData)
    (w : InputSigningData) (hw : p w = true) : ∀ (a : List InputSigningData),
    (∀ y ∈ a, p y = false) → (a ++ w :: b).findIdx? p = some a.length := by
  intro a ha
  rw [List.findIdx?_eq_some_iff_findIdx_eq]
  constructor
  · simp
  · induction a with
    | nil => simp [List.findIdx_cons, hw]
    | cons z zs ih =>
      have hz := ha z (by simp)
      have := ih (fun y hy => ha y (by simp [hy]))
      simp [List.findIdx_cons, hz, this]

theorem insertIdx_decomp (z : InputSigningData) : ∀ (a : List InputSigningData) (n : Nat)
    (w : InputSigningData) (b : List InputSigningData),
    ∃ a2 b2, (a ++ w :: b).insertIdx n z = a2 ++ w :: b2 ∧
      (∀ y ∈ a2, y ∈ a ∨ y = z) := by
  intro a
  induction a with
  | nil =>
    intro n w b
    cases n with
    | zero => exact ⟨[z], b, by simp, by simp⟩
    | succ m => exact ⟨[], b.insertIdx m z, by simp, by simp⟩
  | cons x xs ih =>
    intro n w b
    cases n with
    | zero =>
      refine ⟨z :: x :: xs, b, by simp, ?_⟩
      intro y hy
      rcases List.mem_cons.mp hy with h | h
      · exact Or.inr h
      · exact Or.inl h
    | succ m =>
      obtain ⟨a2, b2, heq, hmem⟩ := ih m w b
      refine ⟨x :: a2, b2, by simp [heq], ?_⟩
      intro y hy
      rcases List.mem_cons.mp hy with h | h
      · exact Or.inl (by simp [h])
      · rcases hmem y h with h2 | h2
        · exact Or.inl (by simp [h2])
        · exact Or.inr h2

theorem insertIdx_after_first (z w : InputSigningData) (b : List InputSigningData) :
    ∀ (a : List InputSigningData),
      (a ++ w :: b).insertIdx (a.length + 1) z = a ++ w :: z :: b := by
  intro a
  induction a with
  | nil => simp
  | cons x xs ih => simp [ih]

theorem indexOf_first_le (w : InputSigningData) (b : List InputSigningData) :
    ∀ (a : List InputSigningData), (a ++ w :: b).indexOf w ≤ a.length := by
  intro a
  induction a with
  | nil => simp [List.indexOf_cons]
  | cons x xs ih =>
    simp only [List.cons_append, List.indexOf_cons]
    cases hx : (x == w)
    · simpa using Nat.succ_le_succ ih
    · simp

theorem indexOf_after (i w : InputSigningData) (b : List InputSigningData) (hw : w ≠ i) :
    ∀ (a : List InputSigningData), (∀ y ∈ a, y ≠ i) →
      a.length + 1 ≤ (a ++ w :: b).indexOf i := by
  intro a
  induction a with
  | nil =>
    intro _
    simp [List.indexOf_cons, beq_false_of_ne hw]
  | cons x xs ih =>
    intro ha
    have hx : (x == i) = false := beq_false_of_ne (ha x (by simp))
    simp only [List.cons_append, List.indexOf_cons, hx, cond_false]
    have := ih (fun y hy => ha y (by simp [hy]))
    have hlen : (x :: xs).length = xs.length + 1 := rfl
    omega

end IotaSel

namespace IotaSel

theorem sort_step_inv (hash : Nat → Nat) (l : List InputSigningData) (c : Address)
    (w : InputSigningData)
    (hwk : w.bech32_address.is_ed25519_kind = true)
    (hown : owns_chain_address hash w c = true)
    (huniq : ∀ y ∈ l, owns_chain_address hash y c = true → y = w)
    (x : InputSigningData) (hx : x ∈ l)
    (hxk : x.bech32_address.is_ed25519_kind = false)
    (a b : List InputSigningData)
    (hA : ∀ y ∈ a, y.bech32_address ≠ c ∧ owns_chain_address hash y c = false) :
    ∃ a2 b2, sort_step hash (a ++ w :: b) x = a2 ++ w :: b2 ∧
      (∀ y ∈ a2, y.bech32_address ≠ c ∧ owns_chain_address hash y c = false) := by
  have hxown : owns_chain_address hash x c = false := by
    by_contra h2
    have h3 : owns_chain_address hash x c = true := by
      cases h4 : owns_chain_address hash x c
      · exact absurd h4 h2
      · rfl
    have := huniq x hx h3
    rw [this] at hxk
    rw [hxk] at hwk
    exact absurd hwk (by simp)
  unfold sort_step
  by_cases hbx : x.bech32_address = c
  · rw [hbx]
    rw [findIdx?_first (fun j => owns_chain_address hash j c) b w hown a
      (fun y hy => (hA y hy).2)]
    dsimp only
    rw [insertIdx_after_first]
    exact ⟨a, x :: b, rfl, hA⟩
  · cases hfind : (a ++ w :: b).findIdx?
        (fun j => owns_chain_address hash j x.bech32_address) with
    | some p =>
      dsimp only
      obtain ⟨a2, b2, heq, hmem⟩ := insertIdx_decomp x a (p + 1) w b
      refine ⟨a2, b2, heq, ?_⟩
      intro y hy
      rcases hmem y hy with h2 | h2
      · exact hA y h2
      · rw [h2]
        exact ⟨hbx, hxown⟩
    | none =>
      dsimp only
      cases hca : chain_address hash x with
      | some c2 =>
        dsimp only
        cases hfind2 : (a ++ w :: b).findIdx? (fun j => j.bech32_address == c2) with
        | some p =>
          dsimp only
          obtain ⟨a2, b2, heq, hmem⟩ := insertIdx_decomp x a p w b
          refine ⟨a2, b2, heq, ?_⟩
          intro y hy
          rcases hmem y hy with h2 | h2
          · exact hA y h2
          · rw [h2]
            exact ⟨hbx, hxown⟩
        | none =>
          dsimp only
          exact ⟨a, b ++ [x], by simp, hA⟩
      | none =>
        dsimp only
        exact ⟨a, b ++ [x], by simp, hA⟩

end IotaSel

namespace IotaSel

theorem foldl_sort_step_inv (hash : Nat → Nat) (l : List InputSigningData) (c : Address)
    (w : InputSigningData)
    (hwk : w.bech32_address.is_ed25519_kind = true)
    (hown : owns_chain_address hash w c = true)
    (huniq : ∀ y ∈ l, owns_chain_address hash y c = true → y = w)
    (rest : List InputSigningData) :
    ∀ (a b : List InputSigningData),
      (∀ y ∈ rest, y ∈ l ∧ y.bech32_address.is_ed25519_kind = false) →
      (∀ y ∈ a, y.bech32_address ≠ c ∧ owns_chain_address hash y c = false) →
      ∃ a2 b2, rest.foldl (sort_step hash) (a ++ w :: b) = a2 ++ w :: b2 ∧
        (∀ y ∈ a2, y.bech32_address ≠ c ∧ owns_chain_address hash y c = false) := by
  induction rest with
  | nil =>
    intro a b _ hA
    exact ⟨a, b, rfl, hA⟩
  | cons x xs ih =>
    intro a b hrest hA
    obtain ⟨hx, hxk⟩ := hrest x (by simp)
    obtain ⟨a1, b1, heq, hA1⟩ :=
      sort_step_inv hash l c w hwk hown huniq x hx hxk a b hA
    have hfold : (x :: xs).foldl (sort_step hash) (a ++ w :: b) =
        xs.foldl (sort_step hash) (a1 ++ w :: b1) := by
      simp [List.foldl_cons, heq]
    rw [hfold]
    exact ih a1 b1 (fun y hy => hrest y (by simp [hy])) hA1

/-- C2 (amended): in the list returned by sort_input_signing_data, for every
input whose bech32 address is an alias or NFT chain address, if the unique
owner of that chain id in the list is itself Ed25519-addressed, then the
index of the referencing input is strictly greater than the index of the
owning input.  (When the owner is itself alias/NFT-addressed the guarantee
can fail, see the counterexample with two mutually-referencing alias
inputs.) -/
theorem claim2_sorted_owner_before_referencing (hash : Nat → Nat)
    (l : List InputSigningData) (c : Address) (w i : InputSigningData)
    (hc : is_chain_address c = true) (hw : w ∈ l)
    (hwk : w.bech32_address.is_ed25519_kind = true)
    (hown : owns_chain_address hash w c = true)
    (huniq : ∀ y ∈ l, owns_chain_address hash y c = true → y = w)
    (_hi : i ∈ sort_input_signing_data hash l) (hib : i.bech32_address = c) :
    (sort_input_signing_data hash l).indexOf w <
      (sort_input_signing_data hash l).indexOf i := by
  have hwb : w.bech32_address ≠ c := ed25519_kind_ne_chain _ _ hwk hc
  have hwi : w ≠ i := by
    intro h2
    rw [h2] at hwb
    exact hwb hib
  -- decompose the ed25519 partition at its first owner of c
  have hw0 : w ∈ l.filter (fun j => j.bech32_address.is_ed25519_kind) :=
    List.mem_filter.mpr ⟨hw, hwk⟩
  have hlt : (l.filter (fun j => j.bech32_address.is_ed25519_kind)).findIdx
      (fun j => owns_chain_address hash j c) <
      (l.filter (fun j => j.bech32_address.is_ed25519_kind)).length :=
    List.findIdx_lt_length_of_exists ⟨w, hw0, hown⟩
  obtain ⟨a0, x0, b0, hsplit, _, hx0, ha0⟩ :=
    findIdx_decomp (fun j => owns_chain_address hash j c)
      (l.filter (fun j => j.bech32_address.is_ed25519_kind)) hlt
  have hx0w : x0 = w := by
    refine huniq x0 ?_ hx0
    have : x0 ∈ l.filter (fun j => j.bech32_address.is_ed25519_kind) := by
      rw [hsplit]; simp
    exact (List.mem_filter.mp this).1
  rw [hx0w] at hsplit
  have hA0 : ∀ y ∈ a0, y.bech32_address ≠ c ∧ owns_chain_address hash y c = false := by
    intro y hy
    have hyf : y ∈ l.filter (fun j => j.bech32_address.is_ed25519_kind) := by
      rw [hsplit]; simp [hy]
    refine ⟨ed25519_kind_ne_chain _ _ (List.mem_filter.mp hyf).2 hc, ha0 y hy⟩
  have hrest : ∀ y ∈ l.filter (fun j => !j.bech32_address.is_ed25519_kind),
      y ∈ l ∧ y.bech32_address.is_ed25519_kind = false := by
    intro y hy
    obtain ⟨h1, h2⟩ := List.mem_filter.mp hy
    exact ⟨h1, by simpa using h2⟩
  have hsorted : ∃ a2 b2, sort_input_signing_data hash l = a2 ++ w :: b2 ∧
      ∀ y ∈ a2, y.bech32_address ≠ c ∧ owns_chain_address hash y c = false := by
    unfold sort_input_signing_data
    rw [List.partition_eq_filter_filter]
    dsimp only
    rw [show (l.filter (not ∘ fun j => j.bech32_address.is_ed25519_kind)) =
      (l.filter (fun j => !j.bech32_address.is_ed25519_kind)) from rfl]
    rw [hsplit]
    exact foldl_sort_step_inv hash l c w hwk hown huniq _ a0 b0 hrest hA0
  obtain ⟨a2, b2, hfin, hA2⟩ := hsorted
  rw [hfin]
  have hile : a2.length + 1 ≤ (a2 ++ w :: b2).indexOf i := by
    refine indexOf_after i w b2 hwi a2 ?_
    intro y hy h2
    have := (hA2 y hy).1
    rw [h2] at this
    exact this hib
  have hwle := indexOf_first_le w b2 a2
  omega

def cyc_first : InputSigningData :=
  { output := .alias 10 [] 1 0 0
      [.stateControllerAddress (.alias 2), .governorAddress (.alias 2)] [],
    output_id := 1, bech32_address := .alias 2 }

def cyc_second : InputSigningData :=
  { output := .alias 10 [] 2 0 0
      [.stateControllerAddress (.alias 1), .governorAddress (.alias 1)] [],
    output_id := 2, bech32_address := .alias 1 }

/-- C2 counterexample: two alias inputs each addressed by the other's alias
address; the sort returns them in their original order, so the first input,
which references chain id 2, sits at index 0 while the input owning chain
id 2 sits at index 1 — the referencing index is not greater than the owning
index. -/
theorem claim2_counterexample :
    sort_input_signing_data sample_hash [cyc_first, cyc_second] =
      [cyc_first, cyc_second] ∧
    cyc_first.bech32_address = Address.alias 2 ∧
    owns_chain_address sample_hash cyc_second (Address.alias 2) = true ∧
    (sort_input_signing_data sample_hash [cyc_first, cyc_second]).indexOf cyc_first <
      (sort_input_signing_data sample_hash [cyc_first, cyc_second]).indexOf cyc_second :=
  ⟨by decide, by decide, by decide, by decide⟩

def owner_alias_input : InputSigningData :=
  { output := .alias 30 [] 7 0 0
      [.stateControllerAddress (.ed25519 3), .governorAddress (.ed25519 3)] [],
    output_id := 6, bech32_address := .ed25519 3 }

def referencing_input : InputSigningData :=
  { output := .basic 20 [] [.address (.alias 7)] [], output_id := 7,
    bech32_address := .alias 7 }

/-- Witness for C2: an Ed25519-addressed alias input owning chain id 7 and a
basic input addressed by alias address 7; after sorting the owner precedes
the referencing input. -/
theorem claim2_witness :
    (sort_input_signing_data sample_hash [referencing_input, owner_alias_input]).indexOf
        owner_alias_input <
      (sort_input_signing_data sample_hash [referencing_input, owner_alias_input]).indexOf
        referencing_input :=
  claim2_sorted_owner_before_referencing sample_hash
    [referencing_input, owner_alias_input] (.alias 7) owner_alias_input referencing_input
    (by decide) (by decide) (by decide) (by decide) (by decide) (by decide) (by decide)

end IotaSel
